import Mathlib

/-!
Shallow embedding of the core of the `struggle` board-game engine:
the base-variant board model (`src/games/struggle/board.rs`), the
transposition table and board-hash packer
(`src/games/struggle/transposition_table.rs`), the expectiminimax search
(`src/games/struggle/players.rs`) and the rotating-variant board
(`src/games/twist/board.rs`, `src/games/twist/get_moves.rs`).

Machine integers (`u8`, `usize`, `u64`) are modelled as `Nat`; all shifts
stay below bit 49, so no `u64` wrap-around can occur and plain `Nat`
arithmetic is exact.  `f64`/`f32` scores are modelled as `ℚ`, with IEEE
infinities modelled by the explicit extension type `XQ` below.  Fixed-size
Rust arrays are modelled as `List`s; the fixed lengths (28 ring tiles,
4 goal slots, 32/3 in the rotating variant) appear as well-formedness
hypotheses where indexing needs them.  Source assertions / `expect` calls
that abort the process are modelled by leaving the affected component
unchanged (each such spot is marked by a comment); the safety theorems
show those spots are unreachable for generator-produced moves.
-/

set_option linter.unusedVariables false

namespace Struggle

/-- `PlayerColor` from `src/games/struggle/mod.rs`. -/
inductive PlayerColor where
  | Red
  | Blue
  | Yellow
  | Green
deriving DecidableEq, Repr

/-- The `COLORS` constant: all four colors in declaration order. -/
def COLORS : List PlayerColor := [.Red, .Blue, .Yellow, .Green]

instance : Fintype PlayerColor :=
  ⟨⟨[PlayerColor.Red, PlayerColor.Blue, PlayerColor.Yellow, PlayerColor.Green], by decide⟩,
    fun c => by cases c <;> decide⟩

/-- `BoardCell`: an optionally occupied ring or goal cell. -/
abbrev BoardCell := Option PlayerColor

/-- `PiecePosition` from `board.rs`: a piece on the shared ring or in a goal. -/
inductive PiecePosition where
  | Board (i : Nat)
  | Goal (i : Nat)
deriving DecidableEq, Repr

/-- Sort key realising the derived `Ord` of `PiecePosition`
(variant order first: every `Board _` sorts before every `Goal _`,
then the index; board indices are `u8`, hence below 256 < 1000). -/
def PiecePosition.sortKey : PiecePosition → Nat
  | .Board i => i
  | .Goal i => 1000 + i

/-- `StruggleMove` from `board.rs`. -/
inductive StruggleMove where
  | AddNewPiece (eats : Bool)
  | MovePiece (from_ to_ : Nat) (eats : Bool)
  | MoveToGoal (from_board to_goal : Nat)
  | MoveInGoal (from_goal to_goal : Nat)
  | SkipTurn
deriving DecidableEq, Repr

/-- `StruggleMove::eats`. -/
def StruggleMove.eats : StruggleMove → Bool
  | .AddNewPiece e => e
  | .MovePiece _ _ e => e
  | _ => false

/-- The `Board` struct of the base variant.  `tiles` has length 28
(`7 * 4`), each `goals c` has length 4, `home_bases c` is the
`pieces_waiting` count of color `c`. -/
structure Board where
  tiles : List BoardCell
  goals : PlayerColor → List BoardCell
  home_bases : PlayerColor → Nat
  players : PlayerColor × PlayerColor
  piece_cache : List PiecePosition × List PiecePosition

/-- `Board::TILES = 7 * 4`; the ring length fixed by the array type. -/
def Board.TILES : Nat := 28

/-- `Board::get_start`. -/
def getStart : PlayerColor → Nat
  | .Red => 0
  | .Blue => 7
  | .Yellow => 14
  | .Green => 21

/-- Stable sort of piece positions by the derived order, realising the
`player_positions.sort()` calls in `Board::get_pieces_internal`. -/
def sortPieces (l : List PiecePosition) : List PiecePosition :=
  l.insertionSort (fun a b => a.sortKey ≤ b.sortKey)

/-- Ring positions (ascending) holding the given player's pieces; the first
loop of `get_pieces_internal` restricted to the `player` case. -/
def ownTilePositions (p : PlayerColor) : Nat → List BoardCell → List PiecePosition
  | _, [] => []
  | i, c :: rest =>
    (if c = some p then [PiecePosition.Board i] else []) ++ ownTilePositions p (i + 1) rest

/-- Ring positions (ascending) holding pieces of any color other than the
given player; the `Some(_)` arm of the first loop of `get_pieces_internal`. -/
def enemyTilePositions (p : PlayerColor) : Nat → List BoardCell → List PiecePosition
  | _, [] => []
  | i, c :: rest =>
    (match c with
      | some q => if q = p then [] else [PiecePosition.Board i]
      | none => []) ++ enemyTilePositions p (i + 1) rest

/-- Occupied slots of a goal track, as `Goal` positions; the goal loops of
`get_pieces_internal`. -/
def occupiedGoalPositions : Nat → List BoardCell → List PiecePosition
  | _, [] => []
  | i, c :: rest =>
    (if c.isSome then [PiecePosition.Goal i] else []) ++ occupiedGoalPositions (i + 1) rest

/-- Core of `Board::get_pieces_internal`, written over the board components
it actually reads (ring tiles and the two goal tracks). -/
def getPiecesInternalCore (tiles : List BoardCell) (goals : PlayerColor → List BoardCell)
    (player enemy : PlayerColor) : List PiecePosition × List PiecePosition :=
  (sortPieces (ownTilePositions player 0 tiles ++ occupiedGoalPositions 0 (goals player)),
   sortPieces (enemyTilePositions player 0 tiles ++ occupiedGoalPositions 0 (goals enemy)))

/-- `Board::get_pieces_internal`. -/
def getPiecesInternal (b : Board) (player enemy : PlayerColor) :
    List PiecePosition × List PiecePosition :=
  getPiecesInternalCore b.tiles b.goals player enemy

/-- `Board::update_piece_cache`. -/
def updatePieceCache (b : Board) : Board :=
  { b with piece_cache := getPiecesInternal b b.players.1 b.players.2 }

/-- `Board::get_pieces` (the `_enemy` argument is unused in the source). -/
def getPieces (b : Board) (player : PlayerColor) :
    List PiecePosition × List PiecePosition :=
  if player = b.players.1 then (b.piece_cache.1, b.piece_cache.2)
  else (b.piece_cache.2, b.piece_cache.1)

/-- `Board::get_winner`: the first color (in `COLORS` order) whose goal
track is fully occupied; the winner reported is the occupant of slot 0. -/
def getWinnerB (b : Board) : Option PlayerColor :=
  COLORS.findSome? fun c =>
    if (b.goals c).all (·.isSome) then (b.goals c).getD 0 none else none

/-- The enter-from-home part of `Board::get_moves` (pushes at most one
`AddNewPiece`). -/
def homeMoves (b : Board) (dice : Nat) (p : PlayerColor) : List StruggleMove :=
  if b.home_bases p > 0 ∧ dice = 6 then
    match (b.tiles).getD (getStart p) none with
    | some other => if other = p then [] else [StruggleMove.AddNewPiece true]
    | none => [StruggleMove.AddNewPiece false]
  else []

/-- The per-piece part of the loop in `Board::get_moves` (each cached piece
contributes at most one move). -/
def pieceMoves (b : Board) (dice : Nat) (p : PlayerColor) :
    PiecePosition → List StruggleMove
  | .Board pos =>
    let newPos := (pos + dice) % Board.TILES
    let goalRelativePos : Option Nat :=
      if p = .Red then
        -- went around
        if newPos < pos then some newPos else none
      else
        if pos < getStart p ∧ getStart p ≤ newPos then some (newPos - getStart p) else none
    match goalRelativePos with
    | some g =>
      match (b.goals p).get? g with
      | some none => [StruggleMove.MoveToGoal pos g]
      | _ => []
    | none =>
      match b.tiles.getD newPos none with
      | none => [StruggleMove.MovePiece pos newPos false]
      | some q => if q = p then [] else [StruggleMove.MovePiece pos newPos true]
  | .Goal i =>
    let newPos := i + dice
    match (b.goals p).get? newPos with
    | some none => [StruggleMove.MoveInGoal i newPos]
    | _ => []

/-- All moves pushed by `Board::get_moves` before the skip-sentinel check. -/
def genMoves (b : Board) (dice : Nat) (p e : PlayerColor) : List StruggleMove :=
  homeMoves b dice p ++ ((getPieces b p).1.flatMap (pieceMoves b dice p))

/-- `Board::get_moves`: the generated moves, or the one-element skip
sentinel when none were generated. -/
def getMovesB (b : Board) (dice : Nat) (p e : PlayerColor) : List StruggleMove :=
  let ms := genMoves b dice p e
  if ms = [] then [StruggleMove.SkipTurn] else ms

/-- Increment one color's home-base count (`HomeBase::add_piece`). -/
def bumpHome (h : PlayerColor → Nat) (c : PlayerColor) : PlayerColor → Nat :=
  fun c' => if c' = c then h c + 1 else h c'

/-- Decrement one color's home-base count (`HomeBase::remove_piece`).
The source panics when the count is already 0; that (unreachable-for-valid
inputs) case is modelled by the `Nat` truncated subtraction staying at 0. -/
def decHome (h : PlayerColor → Nat) (c : PlayerColor) : PlayerColor → Nat :=
  fun c' => if c' = c then h c - 1 else h c'

/-- `Board::perform_move`.  The `expect` calls of the source abort the
process when the target cell is unexpectedly empty; those arms are modelled
by leaving the home bases unchanged (see the safety theorem for C9, which
shows they are never reached on generator-produced moves). -/
def performMove (b : Board) (p : PlayerColor) (m : StruggleMove) : Board :=
  let b' : Board :=
    match m with
    | .AddNewPiece eats =>
      let start := getStart p
      let h1 := if eats then
          match b.tiles.getD start none with
          | some other => bumpHome b.home_bases other
          | none => b.home_bases -- source: expect "expected enemy piece at start" (aborts)
        else b.home_bases
      { b with tiles := b.tiles.set start (some p), home_bases := decHome h1 p }
    | .MovePiece from_ to_ eats =>
      let h1 := if eats then
          match b.tiles.getD to_ none with
          | some target => bumpHome b.home_bases target
          | none => b.home_bases -- source: expect "expecting eating move to have piece in target" (aborts)
        else b.home_bases
      { b with tiles := (b.tiles.set to_ (b.tiles.getD from_ none)).set from_ none,
               home_bases := h1 }
    | .MoveToGoal from_board to_goal =>
      { b with goals := fun c => if c = p then (b.goals p).set to_goal (b.tiles.getD from_board none)
                        else b.goals c,
               tiles := b.tiles.set from_board none }
    | .MoveInGoal from_goal to_goal =>
      { b with goals := fun c => if c = p then
                          ((b.goals p).set to_goal ((b.goals p).getD from_goal none)).set from_goal none
                        else b.goals c }
    | .SkipTurn => b
  updatePieceCache b'

/-- `Board::with_move`: `SkipTurn` borrows the board unchanged (no cache
refresh); every other move is applied to a copy. -/
def withMove (b : Board) (p : PlayerColor) (m : StruggleMove) : Board :=
  match m with
  | .SkipTurn => b
  | m => performMove b p m

/-- `Board::pieces_in_goal`: the number of occupied slots of a goal track. -/
def goalCount (l : List BoardCell) : Nat :=
  l.countP (fun c => c.isSome)

/-- Occurrences of a given cell value on a list of cells (ring count). -/
def cnt (y : BoardCell) (l : List BoardCell) : Nat :=
  l.countP (fun c => decide (c = y))

/-- The per-color piece count of the data-model invariant:
pieces waiting at home, on the ring, and in the color's own goal. -/
def pieceCount (b : Board) (c : PlayerColor) : Nat :=
  b.home_bases c + cnt (some c) b.tiles + goalCount (b.goals c)

/-- The piece cache is the one `update_piece_cache` would recompute. -/
def cacheConsistent (b : Board) : Prop :=
  b.piece_cache = getPiecesInternal b b.players.1 b.players.2

instance (b : Board) : Decidable (cacheConsistent b) := by
  unfold cacheConsistent; infer_instance

/-- Only the board's two players have pieces on the ring (true of every
board of a two-player game; the data model stores exactly the mover's and
the opponent's pieces). -/
def onlyPlayersOnTiles (b : Board) : Prop :=
  ∀ i c, b.tiles.get? i = some (some c) → c = b.players.1 ∨ c = b.players.2

instance (b : Board) : Decidable (onlyPlayersOnTiles b) := by
  unfold onlyPlayersOnTiles
  have : (∀ x ∈ b.tiles, ∀ c, x = some c → c = b.players.1 ∨ c = b.players.2) ↔
      (∀ i c, b.tiles.get? i = some (some c) → c = b.players.1 ∨ c = b.players.2) := by
    constructor
    · intro h i c hi
      exact h _ (List.get?_mem hi) c rfl
    · intro h x hx c hc
      rcases List.get_of_mem hx with ⟨n, rfl⟩
      exact h n c (by rw [List.get?_eq_get n.isLt]; simpa using congrArg some hc)
  exact decidable_of_iff _ this

/-- Well-formedness of a base-variant board: the fixed array lengths of the
Rust types, the two-player-game condition, a fresh piece cache, and the
four-pieces-per-color invariant of the data model. -/
def BoardWF (b : Board) : Prop :=
  b.tiles.length = Board.TILES ∧ (∀ c, (b.goals c).length = 4) ∧
    onlyPlayersOnTiles b ∧ cacheConsistent b ∧ (∀ c, pieceCount b c = 4)

instance (b : Board) : Decidable (BoardWF b) := by
  unfold BoardWF; infer_instance

/-! ## Transposition table (`src/games/struggle/transposition_table.rs`) -/

/-- `TranspositionTableEntry`: a cached score (`f32`, modelled as `ℚ`)
together with the depth at which it was computed. -/
structure TTEntry where
  value : ℚ
  depth : Nat
deriving DecidableEq, Repr

/-- The `DashMap` underlying `TranspositionTable`, modelled per key as a
partial map from 64-bit board hashes. -/
def TTable := Nat → Option TTEntry

/-- `TranspositionTable::new` / `Default`. -/
def TTable.empty : TTable := fun _ => none

/-- `TranspositionTable::get`: return the cached value only if the entry's
recorded depth is at least the requested depth. -/
def TTable.get (t : TTable) (board_hash : Nat) (depth : Nat) : Option ℚ :=
  match t board_hash with
  | some entry => if entry.depth ≥ depth then some entry.value else none
  | none => none

/-- `TranspositionTable::insert_if_better`: update an existing entry only
when the new depth is strictly greater; insert when the key is absent. -/
def TTable.insertIfBetter (t : TTable) (board_hash : Nat) (value : ℚ) (depth : Nat) : TTable :=
  fun k =>
    if k = board_hash then
      match t board_hash with
      | some entry => if depth > entry.depth then some ⟨value, depth⟩ else some entry
      | none => some ⟨value, depth⟩
    else t k

/-- `STORE_CURRENT_PLAYER_IN_KEY` (a compile-time constant of the source). -/
def STORE_CURRENT_PLAYER_IN_KEY : Bool := false

/-- The 6-bit payload of one packed piece: ring positions use their index,
goal slots are offset just above the ring range (`28 + goal_index`). -/
def pieceIndexBits : PiecePosition → Nat
  | .Board i => i
  | .Goal g => 28 + g

/-- One player's packing loop of `get_board_hash`: piece `i` occupies bits
`base + i*6 .. base + i*6 + 5` (1 presence bit, then 5 location bits). -/
def packPiecesFrom (base : Nat) : Nat → Nat → List PiecePosition → Nat
  | _, packed, [] => packed
  | i, packed, pc :: rest =>
    packPiecesFrom base (i + 1)
      ((packed ||| (1 <<< (base + i * 6))) ||| (pieceIndexBits pc <<< (base + i * 6 + 1))) rest

/-- `get_board_hash`: packs the two cached piece lists into a 64-bit
fingerprint (player 0 at bit 0, player 1 at bit 24; all indices < 32, so
every shift stays below bit 49 and `Nat` arithmetic is exact). -/
def getBoardHash (b : Board) (current_player : PlayerColor) : Nat :=
  let p0 := packPiecesFrom 0 0 0 b.piece_cache.1
  let p1 := packPiecesFrom 24 0 p0 b.piece_cache.2
  if STORE_CURRENT_PLAYER_IN_KEY then
    p1 ||| ((if current_player = b.players.1 then 0 else 1) <<< 48)
  else p1

/-! ## The search engine (`src/games/struggle/players.rs`)

`f64` scores are modelled by `XQ`: rationals extended with the two IEEE
infinities used by the search (`f64::NEG_INFINITY` / `f64::INFINITY` as
initial window bounds and scan accumulators).  The search never forms
`-∞ + ∞` (that would be an IEEE NaN); `XQ.add` arbitrarily lets `negInf`
dominate in that unreachable case. -/

/-- Extended rationals: `f64` values reachable by the search. -/
inductive XQ where
  | negInf
  | posInf
  | fin (q : ℚ)
deriving DecidableEq, Repr

/-- The `f64` order restricted to the values above. -/
def XQ.le : XQ → XQ → Prop
  | .negInf, _ => True
  | _, .posInf => True
  | .fin a, .fin b => a ≤ b
  | .posInf, .negInf => False
  | .posInf, .fin _ => False
  | .fin _, .negInf => False

instance : LE XQ := ⟨XQ.le⟩

instance : DecidableRel (fun a b : XQ => a ≤ b) := fun a b =>
  match a, b with
  | .negInf, b => isTrue (by cases b <;> trivial)
  | .posInf, .posInf => isTrue trivial
  | .fin _, .posInf => isTrue trivial
  | .posInf, .negInf => isFalse (fun h => h)
  | .posInf, .fin _ => isFalse (fun h => h)
  | .fin _, .negInf => isFalse (fun h => h)
  | .fin a, .fin b => if h : a ≤ b then isTrue h else isFalse h

@[simp] theorem XQ.negInf_le (x : XQ) : XQ.negInf ≤ x := by cases x <;> trivial

@[simp] theorem XQ.le_posInf (x : XQ) : x ≤ XQ.posInf := by cases x <;> trivial

@[simp] theorem XQ.fin_le_fin (a b : ℚ) : (XQ.fin a ≤ XQ.fin b) ↔ a ≤ b := Iff.rfl

@[simp] theorem XQ.not_posInf_le_fin (a : ℚ) : ¬ (XQ.posInf ≤ XQ.fin a) := fun h => h

@[simp] theorem XQ.not_posInf_le_negInf : ¬ (XQ.posInf ≤ XQ.negInf) := fun h => h

@[simp] theorem XQ.not_fin_le_negInf (a : ℚ) : ¬ (XQ.fin a ≤ XQ.negInf) := fun h => h

/-- `f64::max` on the values above (no NaN inputs occur). -/
def XQ.max (a b : XQ) : XQ := if a ≤ b then b else a

/-- `f64::min` on the values above (no NaN inputs occur). -/
def XQ.min (a b : XQ) : XQ := if a ≤ b then a else b

/-- `f64` addition on the values above; the NaN case `-∞ + ∞` is never
formed by the search and is arbitrarily resolved to `negInf`. -/
def XQ.add : XQ → XQ → XQ
  | .fin a, .fin b => .fin (a + b)
  | .negInf, _ => .negInf
  | _, .negInf => .negInf
  | .posInf, _ => .posInf
  | .fin _, .posInf => .posInf

/-- Multiplication by a positive rational constant (`score * multiplier`,
`expected_value / 6.0`); IEEE keeps infinities under positive scaling. -/
def XQ.scale (m : ℚ) : XQ → XQ
  | .fin a => .fin (m * a)
  | .negInf => .negInf
  | .posInf => .posInf

/-- Adding a finite rational (the root tie-break perturbation); IEEE keeps
infinities under addition of a finite value. -/
def XQ.addQ : XQ → ℚ → XQ
  | .fin a, n => .fin (a + n)
  | .negInf, _ => .negInf
  | .posInf, _ => .posInf

/-- `WIN_SCORE = 1e10`. -/
def WIN_SCORE : ℚ := 10000000000

/-- The deterministic part of `score_move` (the per-call `rng.gen::<f64>()`
noise is abstracted as the `ν` argument of the search). -/
def scoreMoveBase : StruggleMove → ℚ
  | .AddNewPiece eats => if eats then 150 else 50
  | .MovePiece _ _ eats => if eats then 100 else 1
  | .MoveToGoal _ _ => 10
  | .MoveInGoal _ _ => 1
  | .SkipTurn => 0

/-- A fixed RNG seed is abstracted by the noise each `score_move` call adds
to a move's sort key. -/
def SortNoise := StruggleMove → ℚ

/-- `moves.sort_by_key(|mov| OrderedFloat(-score_move(rng, mov)))`: a
stable sort ascending by negated noisy score (Rust's slice sort is stable;
a stable insertion sort produces the same list). -/
def sortMoves (ν : SortNoise) (moves : List StruggleMove) : List StruggleMove :=
  moves.insertionSort (fun a b => -(scoreMoveBase a + ν a) ≤ -(scoreMoveBase b + ν b))

/-- A heuristic function `(board, player, enemy) -> f64`. -/
def Heuristic := Board → PlayerColor → PlayerColor → ℚ

/-- The maximizing-player move scan of one die face in `expectiminimax`:
thread `max_score`/`alpha` through the moves, stop on a proven win or on
the `max_score >= beta` cutoff.  `rec b' cur' α β` is the one-ply-deeper
recursive call; a win of the wrong side aborts the source
(`panic`-arm modelled as score 0, see the module comment). -/
def scanMax (rec : Board → PlayerColor → XQ → XQ → XQ) (b : Board)
    (mover other : PlayerColor) (dice : Nat) (β : XQ) :
    List StruggleMove → XQ → XQ → XQ
  | [], maxScore, _ => maxScore
  | mov :: rest, maxScore, α =>
    let b' := withMove b mover mov
    let sw : XQ × Bool :=
      match getWinnerB b' with
      | some w => if w = mover then (.fin WIN_SCORE, true) else (.fin 0, true)
      | none => (rec b' (if dice = 6 then mover else other) α β, false)
    let maxScore' := maxScore.max sw.1
    let α' := α.max sw.1
    if sw.2 then maxScore'
    else if β ≤ maxScore' then maxScore'
    else scanMax rec b mover other dice β rest maxScore' α'

/-- The minimizing-player move scan of one die face (symmetric to
`scanMax`: threads `min_score`/`beta`, cutoff at `min_score <= alpha`). -/
def scanMin (rec : Board → PlayerColor → XQ → XQ → XQ) (b : Board)
    (mover other : PlayerColor) (dice : Nat) (α : XQ) :
    List StruggleMove → XQ → XQ → XQ
  | [], minScore, _ => minScore
  | mov :: rest, minScore, β =>
    let b' := withMove b mover mov
    let sw : XQ × Bool :=
      match getWinnerB b' with
      | some w => if w = mover then (.fin (-WIN_SCORE), true) else (.fin 0, true)
      | none => (rec b' (if dice = 6 then mover else other) α β, false)
    let minScore' := minScore.min sw.1
    let β' := β.min sw.1
    if sw.2 then minScore'
    else if minScore' ≤ α then minScore'
    else scanMin rec b mover other dice α rest minScore' β'

/-- The unpruned maximizing scan: identical to `scanMax` with the
`max_score >= beta` cutoff break removed (the immediate-win break stays). -/
def scanMaxFull (rec : Board → PlayerColor → XQ → XQ → XQ) (b : Board)
    (mover other : PlayerColor) (dice : Nat) (β : XQ) :
    List StruggleMove → XQ → XQ → XQ
  | [], maxScore, _ => maxScore
  | mov :: rest, maxScore, α =>
    let b' := withMove b mover mov
    let sw : XQ × Bool :=
      match getWinnerB b' with
      | some w => if w = mover then (.fin WIN_SCORE, true) else (.fin 0, true)
      | none => (rec b' (if dice = 6 then mover else other) α β, false)
    let maxScore' := maxScore.max sw.1
    let α' := α.max sw.1
    if sw.2 then maxScore'
    else scanMaxFull rec b mover other dice β rest maxScore' α'

/-- The unpruned minimizing scan: `scanMin` with the `min_score <= alpha`
cutoff break removed. -/
def scanMinFull (rec : Board → PlayerColor → XQ → XQ → XQ) (b : Board)
    (mover other : PlayerColor) (dice : Nat) (α : XQ) :
    List StruggleMove → XQ → XQ → XQ
  | [], minScore, _ => minScore
  | mov :: rest, minScore, β =>
    let b' := withMove b mover mov
    let sw : XQ × Bool :=
      match getWinnerB b' with
      | some w => if w = mover then (.fin (-WIN_SCORE), true) else (.fin 0, true)
      | none => (rec b' (if dice = 6 then mover else other) α β, false)
    let minScore' := minScore.min sw.1
    let β' := β.min sw.1
    if sw.2 then minScore'
    else scanMinFull rec b mover other dice α rest minScore' β'

/-- The per-face multiplier of the chance layer:
`match dice_roll { 6 => 1.0 / 6.0, _ => 1.0 }`. -/
def faceMultiplier (dice : Nat) : ℚ := if dice = 6 then 1 / 6 else 1

/-- One die face of the chance layer: generate and sort the mover's moves,
then run the adversarial scan for the side to move at this node. -/
def faceValueWith (rec : Board → PlayerColor → XQ → XQ → XQ) (ν : SortNoise) (b : Board)
    (cur maxp minp : PlayerColor) (α β : XQ) (dice : Nat) : XQ :=
  if cur = maxp then
    scanMax rec b maxp minp dice β (sortMoves ν (getMovesB b dice maxp minp)) .negInf α
  else
    scanMin rec b minp maxp dice α (sortMoves ν (getMovesB b dice minp maxp)) .posInf β

/-- One die face of the unpruned chance layer. -/
def faceValueFullWith (rec : Board → PlayerColor → XQ → XQ → XQ) (ν : SortNoise) (b : Board)
    (cur maxp minp : PlayerColor) (α β : XQ) (dice : Nat) : XQ :=
  if cur = maxp then
    scanMaxFull rec b maxp minp dice β (sortMoves ν (getMovesB b dice maxp minp)) .negInf α
  else
    scanMinFull rec b minp maxp dice α (sortMoves ν (getMovesB b dice minp maxp)) .posInf β

/-- The six die faces of the chance layer. -/
def FACES : List Nat := [1, 2, 3, 4, 5, 6]

/-- `GameTreePlayer::expectiminimax`, with the transposition-table lookups
elided (they are dead code under the source's
`USE_TRANSPOSITION_TABLE = false`).  `fuel = max_depth - depth` is the
remaining search depth; `fuel = 0` is the `depth == max_depth` leaf. -/
def expectiminimax (h : Heuristic) (ν : SortNoise) (b : Board)
    (cur maxp minp : PlayerColor) : Nat → XQ → XQ → XQ
  | 0, _, _ => .fin (h b maxp minp)
  | fuel + 1, α, β =>
    (FACES.foldl
      (fun (acc : XQ) dice =>
        acc.add ((faceValueWith (fun b' c' α' β' => expectiminimax h ν b' c' maxp minp fuel α' β')
          ν b cur maxp minp α β dice).scale (faceMultiplier dice)))
      (XQ.fin 0)).scale (1 / 6)

/-- The same recursion with the two alpha-beta cutoff breaks removed
(the immediate win/loss short-circuit is kept). -/
def expectiminimaxFull (h : Heuristic) (ν : SortNoise) (b : Board)
    (cur maxp minp : PlayerColor) : Nat → XQ → XQ → XQ
  | 0, _, _ => .fin (h b maxp minp)
  | fuel + 1, α, β =>
    (FACES.foldl
      (fun (acc : XQ) dice =>
        acc.add ((faceValueFullWith
          (fun b' c' α' β' => expectiminimaxFull h ν b' c' maxp minp fuel α' β')
          ν b cur maxp minp α β dice).scale (faceMultiplier dice)))
      (XQ.fin 0)).scale (1 / 6)

/-- One die face of `expectiminimax` at a node with remaining depth
`fuel + 1` (the adversarial-layer score the face feeds into the sum). -/
def emmFace (h : Heuristic) (ν : SortNoise) (b : Board) (cur maxp minp : PlayerColor)
    (fuel : Nat) (α β : XQ) (dice : Nat) : XQ :=
  faceValueWith (fun b' c' α' β' => expectiminimax h ν b' c' maxp minp fuel α' β')
    ν b cur maxp minp α β dice

/-- `GameContext` from `players.rs`. -/
structure GameContext where
  current_player : PlayerColor
  other_player : PlayerColor
  dice : Nat

/-- The score `GameTreePlayer::select_move` computes for one root candidate
move: apply the move, then search with the side to move determined by
whether the rolled die grants another turn. -/
def rootScore (h : Heuristic) (ν : SortNoise) (maxDepth : Nat) (ctx : GameContext)
    (b : Board) (m : StruggleMove) : XQ :=
  let newBoard := withMove b ctx.current_player m
  let nextTurn := if ctx.dice = 6 then ctx.current_player else ctx.other_player
  expectiminimax h ν newBoard nextTurn ctx.current_player ctx.other_player maxDepth
    .negInf .posInf

/-- `Iterator::max_by_key` in candidate order, carrying the index of the
next candidate (each index selects that candidate's perturbation draw):
on a key tie the later element wins, as Rust's `max_by_key` returns the
last maximal element. -/
def maxByKeyLast (key : Nat × StruggleMove → XQ) :
    Nat → Nat × StruggleMove → List StruggleMove → Nat × StruggleMove
  | _, best, [] => best
  | i, best, m :: ms =>
    maxByKeyLast key (i + 1) (if key best ≤ key (i, m) then (i, m) else best) ms

/-- `GameTreePlayer::select_move`: return the single legal move directly,
otherwise the arg-max of the search score plus a tie-break perturbation.
The per-candidate `rng.gen::<f64>()` draws are abstracted as `νp i` for the
`i`-th candidate (each draw lies in `[0, 1)`); `none` models the `unwrap`
on an empty candidate list (never supplied by the driver). -/
def selectMoveGT (h : Heuristic) (ν : SortNoise) (maxDepth : Nat) (νp : Nat → ℚ)
    (ctx : GameContext) (b : Board) (moves : List StruggleMove) : Option StruggleMove :=
  match moves with
  | [] => none
  | [m] => some m
  | m0 :: rest =>
    let key : Nat × StruggleMove → XQ := fun im =>
      (rootScore h ν maxDepth ctx b im.2).addQ (νp im.1)
    some (maxByKeyLast key 1 (0, m0) rest).2

/-- `minimal_heuristic` from `players.rs`. -/
def minimalHeuristic : Heuristic := fun b player enemy =>
  match getWinnerB b with
  | some w => if w = player then WIN_SCORE else -WIN_SCORE
  | none =>
    let pcs := getPieces b player
    let myScore := pcs.1.foldl
      (fun s pc => match pc with | .Board _ => s + 1 | .Goal _ => s + 10) (0 : ℚ)
    pcs.2.foldl
      (fun s pc => match pc with | .Board _ => s - 10 | .Goal _ => s - 100) myScore

/-! ## The rotating variant (`src/games/twist/board.rs`, `get_moves.rs`) -/

/-- `TwistRotation`. -/
inductive TwistRotation where
  | Initial
  | Ccw90
  | Ccw180
  | Ccw270
deriving DecidableEq, Repr

/-- `TwistRotation::next`. -/
def TwistRotation.next : TwistRotation → TwistRotation
  | .Initial => .Ccw90
  | .Ccw90 => .Ccw180
  | .Ccw180 => .Ccw270
  | .Ccw270 => .Initial

/-- `TwistRotation::to_offset`. -/
def TwistRotation.toOffset : TwistRotation → Nat
  | .Initial => 0
  | .Ccw90 => 24
  | .Ccw180 => 16
  | .Ccw270 => 8

/-- `SpinSection`. -/
inductive SpinSection where
  | RedToBlue
  | BlueToYellow
  | YellowToGreen
  | GreenToRed
deriving DecidableEq, Repr

/-- `SpinSection::ALL`. -/
def SpinSection.ALL : List SpinSection :=
  [.RedToBlue, .BlueToYellow, .YellowToGreen, .GreenToRed]

/-- `MoveFrom`. -/
inductive MoveFrom where
  | Home
  | Board (pos : Nat)
deriving DecidableEq, Repr

/-- `NumberDieMove`. -/
inductive NumberDieMove where
  | DoNothing
  | MovePiece (from_ : MoveFrom) (to_ : Nat) (eats : Bool)
  | MoveToGoal (from_board to_goal : Nat)
deriving DecidableEq, Repr

/-- `ActionDieMove`. -/
inductive ActionDieMove where
  | DoNothing
  | SpinSection (s : SpinSection)
  | RotateBoard
deriving DecidableEq, Repr

/-- `TwistMove`: a number-die sub-move paired with an action-die sub-move. -/
structure TwistMove where
  num : NumberDieMove
  act : ActionDieMove
deriving DecidableEq, Repr

/-- `ActionDie`. -/
inductive ActionDie where
  | DoNothing
  | SpinSectionDie
  | RotateBoardDie
deriving DecidableEq, Repr

/-- `DieResult`: the independent number and action dice of one turn. -/
structure DieResult where
  number : Nat
  action : ActionDie
deriving DecidableEq, Repr

/-- The `TwistBoard` struct: a ring of `8 * 4 = 32` tiles, four 3-slot
goal tracks, the four home bases, and the current rotation. -/
structure TwistBoard where
  tiles : List BoardCell
  goals : PlayerColor → List BoardCell
  home_bases : PlayerColor → Nat
  rotation : TwistRotation
  players : PlayerColor × PlayerColor
  piece_cache : List PiecePosition × List PiecePosition

/-- `TwistBoard::TILES = 8 * 4`. -/
def TwistBoard.TILES : Nat := 32

/-- `TwistBoard::get_start` (`STARTS`). -/
def twistStart : PlayerColor → Nat
  | .Red => 0
  | .Blue => 8
  | .Yellow => 16
  | .Green => 24

/-- `TwistBoard::BASE_GOAL_ENTER`: the tile just before each color's home
stretch in the initial rotation. -/
def baseGoalEnter : PlayerColor → Nat
  | .Red => 31
  | .Blue => 7
  | .Yellow => 15
  | .Green => 23

/-- `TwistBoard::get_goal_entrance` (the `GOAL_ENTRIES` table is the
const-evaluation of `internal_get_goal_entry`). -/
def getGoalEntrance (rotation : TwistRotation) (color : PlayerColor) : Nat :=
  (baseGoalEnter color + rotation.toOffset) % TwistBoard.TILES

/-- The winning condition `TwistBoard::get_winner` tests for one color:
its rotation-remapped goal entrance tile holds its own piece and all three
of its goal slots hold its own pieces. -/
def twistWinCond (b : TwistBoard) (c : PlayerColor) : Prop :=
  b.tiles.getD (getGoalEntrance b.rotation c) none = some c ∧ ∀ x ∈ b.goals c, x = some c

instance (b : TwistBoard) (c : PlayerColor) : Decidable (twistWinCond b c) := by
  unfold twistWinCond; infer_instance

/-- `TwistBoard::get_winner`: the first color satisfying `twistWinCond`. -/
def getWinnerT (b : TwistBoard) : Option PlayerColor :=
  COLORS.findSome? fun c => if twistWinCond b c then some c else none

/-- Start index of `TwistBoard::get_spin_section_range` (5 cells from
`start + 1`). -/
def spinStart : SpinSection → Nat
  | .RedToBlue => 1
  | .BlueToYellow => 9
  | .YellowToGreen => 17
  | .GreenToRed => 25

/-- The 5-cell spin-arc segment of the ring. -/
def spinSectionOf (tiles : List BoardCell) (s : SpinSection) : List BoardCell :=
  (tiles.drop (spinStart s)).take 5

/-- `TwistBoard::rotate_spin_section`: reverse the 5-cell arc in place. -/
def rotateSpinSection (tiles : List BoardCell) (s : SpinSection) : List BoardCell :=
  tiles.take (spinStart s) ++ ((tiles.drop (spinStart s)).take 5).reverse
    ++ tiles.drop (spinStart s + 5)

/-- `spin_is_nop` from `get_moves.rs`: the arc reads the same reversed. -/
def spinIsNop (b : TwistBoard) (s : SpinSection) : Bool :=
  spinSectionOf b.tiles s = (spinSectionOf b.tiles s).reverse

/-- `TwistBoard::get_pieces_internal` (same loops as the base variant, but
without the final sort). -/
def getPiecesInternalT (b : TwistBoard) (player enemy : PlayerColor) :
    List PiecePosition × List PiecePosition :=
  (ownTilePositions player 0 b.tiles ++ occupiedGoalPositions 0 (b.goals player),
   enemyTilePositions player 0 b.tiles ++ occupiedGoalPositions 0 (b.goals enemy))

/-- `TwistBoard::update_piece_cache`. -/
def updatePieceCacheT (b : TwistBoard) : TwistBoard :=
  { b with piece_cache := getPiecesInternalT b b.players.1 b.players.2 }

/-- `TwistBoard::get_pieces`. -/
def getPiecesT (b : TwistBoard) (player : PlayerColor) :
    List PiecePosition × List PiecePosition :=
  if player = b.players.1 then (b.piece_cache.1, b.piece_cache.2)
  else (b.piece_cache.2, b.piece_cache.1)

/-- The number-die `match` of `TwistBoard::perform_move`.  The source's
`expect`/`assert` aborts are modelled as in the base variant (component
left unchanged at the marked spots). -/
def applyNumberMove (b : TwistBoard) (p : PlayerColor) : NumberDieMove → TwistBoard
  | .MovePiece from_ to_ eats =>
    let h1 := if eats then
        match b.tiles.getD to_ none with
        | some target => bumpHome b.home_bases target
        | none => b.home_bases -- source: expect "Player should have a piece in target position" (aborts)
      else b.home_bases
    let tiles1 := b.tiles.set to_ (some p)
    match from_ with
    | .Home =>
      -- source: remove_piece().expect(...) aborts when the home base is empty
      { b with tiles := tiles1, home_bases := decHome h1 p }
    | .Board pos =>
      -- source: assert_eq!(self.tiles[pos], Some(player)) aborts on mismatch
      { b with tiles := tiles1.set pos none, home_bases := h1 }
  | .MoveToGoal from_board to_goal =>
    { b with goals := fun c => if c = p then (b.goals p).set to_goal (some p) else b.goals c,
             tiles := b.tiles.set from_board none }
  | .DoNothing => b

/-- The action-die `match` of `TwistBoard::perform_move`. -/
def applyActionMove (b : TwistBoard) : ActionDieMove → TwistBoard
  | .SpinSection s => { b with tiles := rotateSpinSection b.tiles s }
  | .RotateBoard => { b with rotation := b.rotation.next }
  | .DoNothing => b

/-- `TwistBoard::perform_move`: number-die sub-move, then action-die
sub-move, then the cache refresh. -/
def performMoveT (b : TwistBoard) (p : PlayerColor) (m : TwistMove) : TwistBoard :=
  updatePieceCacheT (applyActionMove (applyNumberMove b p m.num) m.act)

/-- `TwistBoard::clockwise_distance`. -/
def clockwiseDistanceT (from_ to_ : Nat) : Nat :=
  if from_ ≤ to_ then to_ - from_ else TwistBoard.TILES - from_ + to_

/-- `TwistBoard::distance_to_goal`. -/
def distanceToGoalT (b : TwistBoard) (p : PlayerColor) (pos : Nat) : Nat :=
  clockwiseDistanceT pos (getGoalEntrance b.rotation p)

/-- `create_move_to_pos` from `get_moves.rs`. -/
def createMoveToPos (b : TwistBoard) (p : PlayerColor) (from_ : MoveFrom) (toPos : Nat) :
    Option NumberDieMove :=
  if from_ = MoveFrom.Home ∧ ¬ b.home_bases p > 0 then none
  else
    match b.tiles.getD toPos none with
    | none => some (.MovePiece from_ toPos false)
    | some target => if target = p then none else some (.MovePiece from_ toPos true)

/-- The goal-slot scan of `get_twist_moves`: try slots
`i - 1, i - 2, …, 0` (for `i = movement_after_goal_entrance`) and yield
the first (deepest) free one. -/
def scanGoalSlots (g : List BoardCell) : Nat → Option Nat
  | 0 => none
  | i + 1 => if g.get? i = some none then some i else scanGoalSlots g i

/-- The per-piece body of the loop in `get_twist_moves`. -/
def twistPieceMoves (b : TwistBoard) (dice : Nat) (p : PlayerColor) :
    PiecePosition → List NumberDieMove
  | .Goal _ => [] -- pieces in goal cannot move in this variant
  | .Board pos =>
    let newPos := (pos + dice) % TwistBoard.TILES
    let dist := distanceToGoalT b p pos
    if dice ≥ dist then
      let movementAfterGoalEntrance := Nat.min (dice - dist) 3
      if movementAfterGoalEntrance = 0 then
        (createMoveToPos b p (.Board pos) newPos).toList
      else
        match scanGoalSlots (b.goals p) movementAfterGoalEntrance with
        | some i => [NumberDieMove.MoveToGoal pos i]
        | none => []
    else
      (createMoveToPos b p (.Board pos) newPos).toList

/-- The number-die sub-moves generated by `get_twist_moves` (relaxed home
rule, the per-piece loop, then the always-legal `DoNothing`). -/
def twistNumberMoves (b : TwistBoard) (dice : DieResult) (p e : PlayerColor) :
    List NumberDieMove :=
  let pieces := (getPiecesT b p).1
  let piecesOnBoard := pieces.countP fun pc => match pc with | .Board _ => true | _ => false
  let homeMove : List NumberDieMove :=
    if (piecesOnBoard = 0 ∨ dice.number = 6) ∧ b.home_bases p > 0 then
      (createMoveToPos b p .Home (twistStart p)).toList
    else []
  homeMove ++ pieces.flatMap (twistPieceMoves b dice.number p) ++ [NumberDieMove.DoNothing]

/-- The action-die sub-moves generated by `get_twist_moves`. -/
def twistActionMoves (b : TwistBoard) (dice : DieResult) : List ActionDieMove :=
  (match dice.action with
    | .SpinSectionDie => SpinSection.ALL.filterMap fun s =>
        if spinIsNop b s then none else some (ActionDieMove.SpinSection s)
    | .RotateBoardDie => [ActionDieMove.RotateBoard]
    | .DoNothing => []) ++ [ActionDieMove.DoNothing]

/-- `get_twist_moves`: the cartesian product of number-die and action-die
sub-moves, in the source's nesting order. -/
def getTwistMoves (b : TwistBoard) (dice : DieResult) (p e : PlayerColor) : List TwistMove :=
  (twistNumberMoves b dice p e).flatMap fun nm =>
    (twistActionMoves b dice).map fun am => TwistMove.mk nm am

/-- Per-color piece count for the rotating variant. -/
def pieceCountT (b : TwistBoard) (c : PlayerColor) : Nat :=
  b.home_bases c + cnt (some c) b.tiles + goalCount (b.goals c)

/-- Cache freshness for the rotating variant. -/
def cacheConsistentT (b : TwistBoard) : Prop :=
  b.piece_cache = getPiecesInternalT b b.players.1 b.players.2

instance (b : TwistBoard) : Decidable (cacheConsistentT b) := by
  unfold cacheConsistentT; infer_instance

/-- Only the board's two players have pieces on the rotating ring. -/
def onlyPlayersOnTilesT (b : TwistBoard) : Prop :=
  ∀ i c, b.tiles.get? i = some (some c) → c = b.players.1 ∨ c = b.players.2

instance (b : TwistBoard) : Decidable (onlyPlayersOnTilesT b) := by
  unfold onlyPlayersOnTilesT
  have : (∀ x ∈ b.tiles, ∀ c, x = some c → c = b.players.1 ∨ c = b.players.2) ↔
      (∀ i c, b.tiles.get? i = some (some c) → c = b.players.1 ∨ c = b.players.2) := by
    constructor
    · intro h i c hi
      exact h _ (List.get?_mem hi) c rfl
    · intro h x hx c hc
      rcases List.get_of_mem hx with ⟨n, rfl⟩
      exact h n c (by rw [List.get?_eq_get n.isLt]; simpa using congrArg some hc)
  exact decidable_of_iff _ this

/-- Well-formedness of a rotating-variant board. -/
def TwistBoardWF (b : TwistBoard) : Prop :=
  b.tiles.length = TwistBoard.TILES ∧ (∀ c, (b.goals c).length = 3) ∧
    onlyPlayersOnTilesT b ∧ cacheConsistentT b ∧ (∀ c, pieceCountT b c = 4)

instance (b : TwistBoard) : Decidable (TwistBoardWF b) := by
  unfold TwistBoardWF; infer_instance

/-! ## Concrete boards used by witnesses and counterexamples -/

/-- Build a base-variant board with the given ring pieces and home counts
(goals empty) and a fresh piece cache, as a game driver would. -/
def mkBoard (pieces : List (Nat × PlayerColor)) (homes : PlayerColor → Nat)
    (players : PlayerColor × PlayerColor) : Board :=
  updatePieceCache
    { tiles := pieces.foldl (fun t pc => t.set pc.1 (some pc.2)) (List.replicate 28 none),
      goals := fun _ => List.replicate 4 none,
      home_bases := homes,
      players := players,
      piece_cache := ([], []) }

/-- Build a rotating-variant board with a fresh piece cache. -/
def mkTwist (pieces : List (Nat × PlayerColor)) (homes : PlayerColor → Nat)
    (goals : PlayerColor → List BoardCell) (rot : TwistRotation)
    (players : PlayerColor × PlayerColor) : TwistBoard :=
  updatePieceCacheT
    { tiles := pieces.foldl (fun t pc => t.set pc.1 (some pc.2)) (List.replicate 32 none),
      goals := goals, home_bases := homes, rotation := rot,
      players := players, piece_cache := ([], []) }

/-- The all-zero abstraction of a sort-noise stream. -/
def nu0 : SortNoise := fun _ => 0

/-- A fresh Red-vs-Yellow board. -/
def bFresh : Board := mkBoard [] (fun _ => 4) (.Red, .Yellow)

/-- Red piece at ring tile 20, three Red pieces at home. -/
def bOneRed : Board := mkBoard [(20, .Red)] (fun c => if c = .Red then 3 else 4) (.Red, .Yellow)

/-- Red pieces at tiles 0 and 7, a Yellow piece at tile 3. -/
def bPrune : Board := mkBoard [(0, .Red), (7, .Red), (3, .Yellow)]
  (fun c => if c = .Red then 2 else if c = .Yellow then 3 else 4) (.Red, .Yellow)

/-- A Yellow piece sits on Red's start tile (capturable by `AddNewPiece`). -/
def bEat : Board := mkBoard [(0, .Yellow)]
  (fun c => if c = .Yellow then 3 else 4) (.Red, .Yellow)

/-- Red pieces at tiles 13 and 20 (tile 13 is one step short of Yellow's
start tile 14), two Red pieces at home. -/
def bTie : Board := mkBoard [(13, .Red), (20, .Red)]
  (fun c => if c = .Red then 2 else 4) (.Red, .Yellow)

/-- A fresh Red-vs-Yellow rotating-variant board. -/
def tFresh : TwistBoard :=
  mkTwist [] (fun _ => 4) (fun _ => List.replicate 3 none) .Initial (.Red, .Yellow)

/-- Rotating-variant board about to win: Red's goal full and Red on its
goal entrance tile 31. -/
def tWin : TwistBoard :=
  mkTwist [(31, .Red)] (fun c => if c = .Red then 0 else 4)
    (fun c => if c = .Red then List.replicate 3 (some PlayerColor.Red)
      else List.replicate 3 none) .Initial (.Red, .Yellow)

/-- A small concrete transposition table: one entry at key 0 with value 5
recorded at depth 3. -/
def ttEx : TTable := fun k => if k = 0 then some ⟨5, 3⟩ else none

/-- Modelled from the spec's words for comparison with `expectiminimax`
(claim C1): the chance layer that sums each face's adversarial-layer score
"weighted 1/6 per face uniformly", i.e. the same fold as the source's
chance layer but without the extra face-6 multiplier. -/
def uniformChanceLayer (h : Heuristic) (ν : SortNoise) (b : Board)
    (cur maxp minp : PlayerColor) (fuel : Nat) (α β : XQ) : XQ :=
  (FACES.foldl
    (fun (acc : XQ) dice => acc.add (emmFace h ν b cur maxp minp fuel α β dice))
    (XQ.fin 0)).scale (1 / 6)

/-- A concrete perturbation stream: 9/10 for the first candidate, 0 after
(all values possible outputs of `rng.gen::<f64>()`). -/
def nuEx : Nat → ℚ := fun i => if i = 0 then 9 / 10 else 0

/-- Concrete root context: Red to move with die 1 against Yellow. -/
def ctxEx : GameContext := ⟨.Red, .Yellow, 1⟩

/-- Concrete root context: Red to move with die 6 against Yellow. -/
def ctxW : GameContext := ⟨.Red, .Yellow, 6⟩

/-- The facts `Board::get_moves` guarantees about every move it generates
(on a well-formed board): the generation-site conditions that
`perform_move` relies on. -/
def MoveFacts (b : Board) (p : PlayerColor) : StruggleMove → Prop
  | .AddNewPiece true =>
    b.home_bases p > 0 ∧ getStart p < b.tiles.length ∧
      ∃ q, q ≠ p ∧ b.tiles.get? (getStart p) = some (some q)
  | .AddNewPiece false =>
    b.home_bases p > 0 ∧ getStart p < b.tiles.length ∧
      b.tiles.get? (getStart p) = some none
  | .MovePiece from_ to_ true =>
    b.tiles.get? from_ = some (some p) ∧ to_ < b.tiles.length ∧
      ∃ q, q ≠ p ∧ b.tiles.get? to_ = some (some q)
  | .MovePiece from_ to_ false =>
    b.tiles.get? from_ = some (some p) ∧ to_ < b.tiles.length ∧
      b.tiles.get? to_ = some none
  | .MoveToGoal from_board to_goal =>
    b.tiles.get? from_board = some (some p) ∧ (b.goals p).get? to_goal = some none
  | .MoveInGoal from_goal to_goal =>
    (∃ q, (b.goals p).get? from_goal = some (some q)) ∧ (b.goals p).get? to_goal = some none
  | .SkipTurn => True

/-- The facts `get_twist_moves` guarantees about every number-die sub-move
it generates (on a well-formed rotating-variant board). -/
def TwistMoveFacts (b : TwistBoard) (p : PlayerColor) : NumberDieMove → Prop
  | .MovePiece from_ to_ eats =>
    (match from_ with
      | .Home => b.home_bases p > 0
      | .Board pos => b.tiles.get? pos = some (some p)) ∧
    to_ < b.tiles.length ∧
      (match eats with
        | true => ∃ q, q ≠ p ∧ b.tiles.get? to_ = some (some q)
        | false => b.tiles.get? to_ = some none)
  | .MoveToGoal from_board to_goal =>
    b.tiles.get? from_board = some (some p) ∧ (b.goals p).get? to_goal = some none
  | .DoNothing => True

/-- The ring tile a capturing move captures on: the mover's start tile for
`AddNewPiece`, the destination tile for `MovePiece` (0 for the others,
which never capture). -/
def captureTarget (p : PlayerColor) : StruggleMove → Nat
  | .AddNewPiece _ => getStart p
  | .MovePiece _ to_ _ => to_
  | _ => 0

/-- No-panic conditions of `Board::perform_move` for one move: every
`expect`, `assert` and array access taken by the move succeeds. -/
def SafeMove (b : Board) (p : PlayerColor) : StruggleMove → Prop
  | .AddNewPiece eats =>
    b.home_bases p > 0 ∧ getStart p < b.tiles.length ∧
      (eats = true → ∃ q, q ≠ p ∧ b.tiles.get? (getStart p) = some (some q))
  | .MovePiece from_ to_ eats =>
    from_ < b.tiles.length ∧ to_ < b.tiles.length ∧
      (eats = true → ∃ q, q ≠ p ∧ b.tiles.get? to_ = some (some q))
  | .MoveToGoal from_board to_goal =>
    from_board < b.tiles.length ∧ to_goal < (b.goals p).length
  | .MoveInGoal from_goal to_goal =>
    from_goal < (b.goals p).length ∧ to_goal < (b.goals p).length
  | .SkipTurn => True

/-! # Theorems -/

/-! ## C3: transposition-cache depth policy -/

/-- C3.  For every key of the transposition cache: a stored entry with
depth `D` survives any `insert_if_better` at a depth that is not strictly
greater (so in particular at any depth `< D`), the entry is replaced
exactly when the key is absent or the new depth is strictly greater, other
keys are untouched, and `get key d` returns a value only from an entry
whose recorded depth is at least `d`. -/
theorem transposition_depth_policy (t : TTable) (k : Nat) (v : ℚ) (d : Nat) :
    (∀ e, t k = some e → d ≤ e.depth → TTable.insertIfBetter t k v d k = some e) ∧
    (t k = none → TTable.insertIfBetter t k v d k = some ⟨v, d⟩) ∧
    (∀ e, t k = some e → e.depth < d → TTable.insertIfBetter t k v d k = some ⟨v, d⟩) ∧
    (∀ kk, kk ≠ k → TTable.insertIfBetter t k v d kk = t kk) ∧
    (∀ q, TTable.get t k d = some q → ∃ e, t k = some e ∧ d ≤ e.depth ∧ e.value = q) := by
  refine ⟨?_, ?_, ?_, ?_, ?_⟩
  · intro e he hd
    simp [TTable.insertIfBetter, he, show ¬ d > e.depth by omega]
  · intro he
    simp [TTable.insertIfBetter, he]
  · intro e he hd
    simp [TTable.insertIfBetter, he, show d > e.depth from hd]
  · intro kk hkk
    simp [TTable.insertIfBetter, hkk]
  · intro q hq
    unfold TTable.get at hq
    rcases hget : t k with _ | e
    · rw [hget] at hq; exact absurd hq (by simp)
    · rw [hget] at hq
      simp only [ge_iff_le, Option.ite_none_right_eq_some, Option.some.injEq] at hq
      exact ⟨e, rfl, hq.1, hq.2⟩

/-- Witness for C3 at a concrete table: the depth-3 entry survives an
insert at depth 2. -/
theorem transposition_depth_policy_witness :
    TTable.insertIfBetter ttEx 0 7 2 0 = some ⟨5, 3⟩ :=
  (transposition_depth_policy ttEx 0 7 2).1 ⟨5, 3⟩ rfl (by decide)

/-! ## C8: the board hash is a pure function of board content -/

/-- C8.  `get_board_hash` depends only on board content: two boards with
the same ring tiles, goal contents, home-base counts and ordered player
pair (each with a fresh piece cache, as maintained after every mutation)
hash identically for the same current-player argument, independently of
the move history that produced them. -/
theorem board_hash_content_pure (b1 b2 : Board) (cur : PlayerColor)
    (ht : b1.tiles = b2.tiles) (hg : b1.goals = b2.goals)
    (hh : b1.home_bases = b2.home_bases) (hp : b1.players = b2.players)
    (hc1 : cacheConsistent b1) (hc2 : cacheConsistent b2) :
    getBoardHash b1 cur = getBoardHash b2 cur := by
  have hcache : b1.piece_cache = b2.piece_cache := by
    rw [hc1, hc2]
    unfold getPiecesInternal
    rw [ht, hg, hp]
  unfold getBoardHash
  rw [hcache, hp]

/-- Witness for C8 at a concrete board. -/
theorem board_hash_content_pure_witness :
    getBoardHash bOneRed .Red = getBoardHash bOneRed .Red :=
  board_hash_content_pure bOneRed bOneRed .Red rfl rfl rfl rfl (by decide) (by decide)

/-! ## C10: the rotating-variant winner condition -/

/-- C10.  `TwistBoard::get_winner` returns a winner exactly when some
color's three goal slots all hold its own pieces and the ring tile at that
color's rotation-remapped goal entrance holds its piece; any returned
winner satisfies that condition (so a full goal track alone, or an
entrance held by another color, never wins). -/
theorem twist_winner_iff (b : TwistBoard) :
    (∀ c, getWinnerT b = some c → twistWinCond b c) ∧
    (getWinnerT b = none ↔ ∀ c, ¬ twistWinCond b c) := by
  constructor
  · intro c hc
    rcases List.exists_of_findSome?_eq_some hc with ⟨a, _, ha⟩
    by_cases h : twistWinCond b a
    · rw [if_pos h] at ha
      injection ha with ha; exact ha ▸ h
    · rw [if_neg h] at ha; exact absurd ha (by simp)
  · unfold getWinnerT
    rw [List.findSome?_eq_none_iff]
    constructor
    · intro h c
      have := h c (by cases c <;> simp [COLORS])
      by_cases hc : twistWinCond b c
      · rw [if_pos hc] at this; exact absurd this (by simp)
      · exact hc
    · intro h c hc
      rw [if_neg (h c)]

/-- Witness for C10: on the concrete board `tWin` the winner is Red, and
Red indeed satisfies the full winning condition. -/
theorem twist_winner_iff_witness : twistWinCond tWin .Red :=
  (twist_winner_iff tWin).1 .Red (by decide)

/-! ## List helper lemmas -/

theorem countP_set (pr : BoardCell → Bool) (l : List BoardCell) :
    ∀ (i : Nat) (v x : BoardCell), l.get? i = some v →
      (l.set i x).countP pr + (if pr v then 1 else 0) =
        l.countP pr + (if pr x then 1 else 0) := by
  induction l with
  | nil => intro i v x h; simp at h
  | cons hd tl ih =>
    intro i v x h
    cases i with
    | zero =>
      simp only [List.get?] at h
      injection h with h; subst h
      simp [List.countP_cons]
      omega
    | succ n =>
      simp only [List.get?] at h
      have := ih n v x h
      simp [List.countP_cons]
      omega

theorem cnt_set (y : BoardCell) (l : List BoardCell) (i : Nat) (v x : BoardCell)
    (h : l.get? i = some v) :
    cnt y (l.set i x) + (if v = y then 1 else 0) = cnt y l + (if x = y then 1 else 0) := by
  have := countP_set (fun c => decide (c = y)) l i v x h
  simpa [cnt] using this

theorem goalCount_set (l : List BoardCell) (i : Nat) (v x : BoardCell)
    (h : l.get? i = some v) :
    goalCount (l.set i x) + (if v.isSome then 1 else 0) =
      goalCount l + (if x.isSome then 1 else 0) := by
  have := countP_set (fun c => c.isSome) l i v x h
  simpa [goalCount] using this

theorem getD_none_eq_some_iff (l : List BoardCell) (i : Nat) (v : PlayerColor) :
    l.getD i none = some v ↔ l.get? i = some (some v) := by
  unfold List.getD
  cases h : l.get? i with
  | none => simp
  | some c => cases c <;> simp

theorem getD_none_eq_none (l : List BoardCell) (i : Nat) (hlen : i < l.length)
    (h : l.getD i none = none) : l.get? i = some none := by
  unfold List.getD at h
  cases hg : l.get? i with
  | none => exact absurd (List.get?_eq_none.1 hg) (by omega)
  | some c => cases c with
    | none => rfl
    | some q => rw [hg] at h; simp at h

theorem mem_ownTilePositions (p : PlayerColor) (l : List BoardCell) :
    ∀ (i : Nat) (pc : PiecePosition), pc ∈ ownTilePositions p i l →
      ∃ j, pc = PiecePosition.Board j ∧ i ≤ j ∧ l.get? (j - i) = some (some p) := by
  induction l with
  | nil => intro i pc h; simp [ownTilePositions] at h
  | cons hd tl ih =>
    intro i pc h
    unfold ownTilePositions at h
    rcases List.mem_append.1 h with h1 | h2
    · by_cases hc : hd = some p
      · rw [if_pos hc] at h1
        simp at h1
        exact ⟨i, h1, le_refl i, by simp [hc]⟩
      · rw [if_neg hc] at h1; simp at h1
    · rcases ih (i + 1) pc h2 with ⟨j, rfl, hij, hget⟩
      refine ⟨j, rfl, by omega, ?_⟩
      have : j - i = (j - (i + 1)) + 1 := by omega
      rw [this]
      simpa using hget

theorem mem_enemyTilePositions (p : PlayerColor) (l : List BoardCell) :
    ∀ (i : Nat) (pc : PiecePosition), pc ∈ enemyTilePositions p i l →
      ∃ j q, pc = PiecePosition.Board j ∧ q ≠ p ∧ i ≤ j ∧ l.get? (j - i) = some (some q) := by
  induction l with
  | nil => intro i pc h; simp [enemyTilePositions] at h
  | cons hd tl ih =>
    intro i pc h
    unfold enemyTilePositions at h
    rcases List.mem_append.1 h with h1 | h2
    · cases hd with
      | none => simp at h1
      | some q =>
        by_cases hq : q = p
        · simp [hq] at h1
        · simp [hq] at h1
          exact ⟨i, q, h1, hq, le_refl i, by simp⟩
    · rcases ih (i + 1) pc h2 with ⟨j, q, rfl, hq, hij, hget⟩
      refine ⟨j, q, rfl, hq, by omega, ?_⟩
      have : j - i = (j - (i + 1)) + 1 := by omega
      rw [this]
      simpa using hget

theorem mem_occupiedGoalPositions (l : List BoardCell) :
    ∀ (i : Nat) (pc : PiecePosition), pc ∈ occupiedGoalPositions i l →
      ∃ j q, pc = PiecePosition.Goal j ∧ i ≤ j ∧ l.get? (j - i) = some (some q) := by
  induction l with
  | nil => intro i pc h; simp [occupiedGoalPositions] at h
  | cons hd tl ih =>
    intro i pc h
    unfold occupiedGoalPositions at h
    rcases List.mem_append.1 h with h1 | h2
    · cases hd with
      | none => simp at h1
      | some q =>
        simp at h1
        exact ⟨i, q, h1, le_refl i, by simp⟩
    · rcases ih (i + 1) pc h2 with ⟨j, q, rfl, hij, hget⟩
      refine ⟨j, q, rfl, by omega, ?_⟩
      have : j - i = (j - (i + 1)) + 1 := by omega
      rw [this]
      simpa using hget

theorem length_ownTilePositions (p : PlayerColor) (l : List BoardCell) :
    ∀ i, (ownTilePositions p i l).length = cnt (some p) l := by
  induction l with
  | nil => intro i; simp [ownTilePositions, cnt]
  | cons hd tl ih =>
    intro i
    unfold ownTilePositions
    by_cases hc : hd = some p <;>
      simp [hc, ih (i + 1), cnt, List.countP_cons]

theorem length_enemyTilePositions (p : PlayerColor) (l : List BoardCell) :
    ∀ i, (enemyTilePositions p i l).length =
      l.countP (fun c => c.isSome && !(c = some p : Bool)) := by
  induction l with
  | nil => intro i; simp [enemyTilePositions]
  | cons hd tl ih =>
    intro i
    unfold enemyTilePositions
    match hd with
    | none => simp [ih (i + 1), List.countP_cons]
    | some q =>
      by_cases hq : q = p <;>
        simp [hq, ih (i + 1), List.countP_cons]

theorem length_occupiedGoalPositions (l : List BoardCell) :
    ∀ i, (occupiedGoalPositions i l).length = goalCount l := by
  induction l with
  | nil => intro i; simp [occupiedGoalPositions, goalCount]
  | cons hd tl ih =>
    intro i
    unfold occupiedGoalPositions
    cases hd <;> simp [ih (i + 1), goalCount, List.countP_cons]

theorem mem_sortPieces (l : List PiecePosition) (pc : PiecePosition) :
    pc ∈ sortPieces l ↔ pc ∈ l :=
  (List.perm_insertionSort _ l).mem_iff

theorem length_sortPieces (l : List PiecePosition) :
    (sortPieces l).length = l.length :=
  (List.perm_insertionSort _ l).length_eq

/-- Convert the index-based `onlyPlayersOnTiles` to a membership fact. -/
theorem onlyPlayers_mem (b : Board) (hB : onlyPlayersOnTiles b) :
    ∀ c ∈ b.tiles, ∀ q, c = some q → q = b.players.1 ∨ q = b.players.2 := by
  intro c hc q hq
  rcases List.get_of_mem hc with ⟨n, rfl⟩
  exact hB n q (by rw [List.get?_eq_get n.isLt]; simpa using congrArg some hq)

/-! ## The piece cache on a well-formed board -/

/-- What membership of the cached piece list of color `p` means, and how
long that list is, on a well-formed board whose mover is one of the two
players. -/
theorem pieces_spec (b : Board) (p : PlayerColor) (hWF : BoardWF b)
    (hp : p = b.players.1 ∨ p = b.players.2) :
    (∀ pos, PiecePosition.Board pos ∈ (getPieces b p).1 →
      b.tiles.get? pos = some (some p)) ∧
    (∀ i, PiecePosition.Goal i ∈ (getPieces b p).1 →
      ∃ q, (b.goals p).get? i = some (some q)) ∧
    (getPieces b p).1.length = cnt (some p) b.tiles + goalCount (b.goals p) := by
  obtain ⟨hlen, hglen, honly, hcache, hcount⟩ := hWF
  by_cases h1 : p = b.players.1
  · have hsel : (getPieces b p).1 =
        sortPieces (ownTilePositions b.players.1 0 b.tiles ++
          occupiedGoalPositions 0 (b.goals b.players.1)) := by
      unfold getPieces
      rw [if_pos h1, hcache]
      rfl
    refine ⟨?_, ?_, ?_⟩
    · intro pos hpos
      rw [hsel, mem_sortPieces] at hpos
      rcases List.mem_append.1 hpos with hmem | hmem
      · rcases mem_ownTilePositions _ _ _ _ hmem with ⟨j, hj, _, hget⟩
        injection hj with hj; subst hj
        rw [h1]
        simpa using hget
      · rcases mem_occupiedGoalPositions _ _ _ hmem with ⟨j, q, hj, _, _⟩
        exact absurd hj (by simp)
    · intro i hi
      rw [hsel, mem_sortPieces] at hi
      rcases List.mem_append.1 hi with hmem | hmem
      · rcases mem_ownTilePositions _ _ _ _ hmem with ⟨j, hj, _, _⟩
        exact absurd hj (by simp)
      · rcases mem_occupiedGoalPositions _ _ _ hmem with ⟨j, q, hj, _, hget⟩
        injection hj with hj; subst hj
        rw [h1]
        exact ⟨q, by simpa using hget⟩
    · rw [hsel, length_sortPieces, List.length_append,
        length_ownTilePositions, length_occupiedGoalPositions, h1]
  · have h2 : p = b.players.2 := hp.resolve_left h1
    have hsel : (getPieces b p).1 =
        sortPieces (enemyTilePositions b.players.1 0 b.tiles ++
          occupiedGoalPositions 0 (b.goals b.players.2)) := by
      unfold getPieces
      rw [if_neg h1, hcache]
      rfl
    refine ⟨?_, ?_, ?_⟩
    · intro pos hpos
      rw [hsel, mem_sortPieces] at hpos
      rcases List.mem_append.1 hpos with hmem | hmem
      · rcases mem_enemyTilePositions _ _ _ _ hmem with ⟨j, q, hj, hq, _, hget⟩
        injection hj with hj; subst hj
        simp only [Nat.sub_zero] at hget
        have hqp : q = b.players.1 ∨ q = b.players.2 := honly pos q hget
        have hqeq : q = p := by
          rcases hqp with hh | hh
          · exact absurd hh hq
          · rw [hh, h2]
        rw [← hqeq]
        exact hget
      · rcases mem_occupiedGoalPositions _ _ _ hmem with ⟨j, q, hj, _, _⟩
        exact absurd hj (by simp)
    · intro i hi
      rw [hsel, mem_sortPieces] at hi
      rcases List.mem_append.1 hi with hmem | hmem
      · rcases mem_enemyTilePositions _ _ _ _ hmem with ⟨j, q, hj, _, _, _⟩
        exact absurd hj (by simp)
      · rcases mem_occupiedGoalPositions _ _ _ hmem with ⟨j, q, hj, _, hget⟩
        injection hj with hj; subst hj
        rw [h2]
        exact ⟨q, by simpa using hget⟩
    · have hne : b.players.2 ≠ b.players.1 := fun hh => h1 (h2.trans hh)
      have hcong : ∀ c ∈ b.tiles,
          (c.isSome && !(c = some b.players.1 : Bool)) = decide (c = some b.players.2) := by
        intro c hc
        match c with
        | none => simp
        | some q =>
          have hqp : q = b.players.1 ∨ q = b.players.2 :=
            onlyPlayers_mem b honly (some q) hc q rfl
          have hne' : ¬ b.players.1 = b.players.2 := fun hh => hne hh.symm
          by_cases hq1 : q = b.players.1
          · simp [hq1, hne']
          · have hq2 : q = b.players.2 := hqp.resolve_left hq1
            simp [hq2, hne]
      rw [hsel, length_sortPieces, List.length_append,
        length_enemyTilePositions, length_occupiedGoalPositions, h2]
      congr 1
      rw [List.countP_congr (fun x hx => by rw [hcong x hx])]
      rfl

/-! ## Soundness of the base-variant move generator -/

theorem homeMoves_facts (b : Board) (d : Nat) (p : PlayerColor)
    (hlen : b.tiles.length = Board.TILES) :
    ∀ m ∈ homeMoves b d p, MoveFacts b p m := by
  intro m hm
  unfold homeMoves at hm
  by_cases hc : b.home_bases p > 0 ∧ d = 6
  · rw [if_pos hc] at hm
    have hstart : getStart p < b.tiles.length := by
      rw [hlen]; cases p <;> decide
    cases hg : b.tiles.getD (getStart p) none with
    | none =>
      rw [hg] at hm
      simp at hm; subst hm
      exact ⟨hc.1, hstart, getD_none_eq_none _ _ hstart hg⟩
    | some other =>
      rw [hg] at hm
      by_cases ho : other = p
      · simp [ho] at hm
      · simp [ho] at hm; subst hm
        exact ⟨hc.1, hstart, other, ho, (getD_none_eq_some_iff _ _ _).1 hg⟩
  · rw [if_neg hc] at hm; simp at hm

theorem pieceMoves_board_facts (b : Board) (d : Nat) (p : PlayerColor) (pos : Nat)
    (hlen : b.tiles.length = Board.TILES)
    (hpos : b.tiles.get? pos = some (some p)) :
    ∀ m ∈ pieceMoves b d p (.Board pos), MoveFacts b p m := by
  intro m hm
  simp only [pieceMoves] at hm
  have hnew : (pos + d) % Board.TILES < b.tiles.length := by
    rw [hlen]; exact Nat.mod_lt _ (by decide)
  split at hm
  · -- goal-relative position: Some g
    split at hm
    · -- goal slot free: MoveToGoal
      rename_i g hgoal
      simp at hm; subst hm
      exact ⟨hpos, hgoal⟩
    · simp at hm
  · -- normal destination tile
    split at hm
    · -- empty destination: silent move
      rename_i hdest
      simp at hm; subst hm
      exact ⟨hpos, hnew, getD_none_eq_none _ _ hnew hdest⟩
    · -- occupied destination
      rename_i q hdest
      by_cases hq : q = p
      · rw [if_pos hq] at hm; simp at hm
      · rw [if_neg hq] at hm; simp at hm; subst hm
        exact ⟨hpos, hnew, q, hq, (getD_none_eq_some_iff _ _ _).1 hdest⟩

theorem pieceMoves_goal_facts (b : Board) (d : Nat) (p : PlayerColor) (i : Nat)
    (hgoal : ∃ q, (b.goals p).get? i = some (some q)) :
    ∀ m ∈ pieceMoves b d p (.Goal i), MoveFacts b p m := by
  intro m hm
  simp only [pieceMoves] at hm
  split at hm
  · rename_i hfree
    simp at hm; subst hm
    exact ⟨hgoal, hfree⟩
  · simp at hm

/-- Every move the generator pushes satisfies its generation-site facts. -/
theorem genMoves_facts (b : Board) (d : Nat) (p e : PlayerColor)
    (hWF : BoardWF b) (hp : p = b.players.1 ∨ p = b.players.2) :
    ∀ m ∈ genMoves b d p e, MoveFacts b p m := by
  intro m hm
  rcases List.mem_append.1 hm with hHome | hPieces
  · exact homeMoves_facts b d p hWF.1 m hHome
  · rcases List.mem_flatMap.1 hPieces with ⟨pc, hpc, hmove⟩
    obtain ⟨hboard, hgoal, _⟩ := pieces_spec b p hWF hp
    cases pc with
    | Board pos => exact pieceMoves_board_facts b d p pos hWF.1 (hboard pos hpc) m hmove
    | Goal i => exact pieceMoves_goal_facts b d p i (hgoal i hpc) m hmove

/-- `SkipTurn` is never among the generated (pre-sentinel) moves. -/
theorem skip_not_mem_genMoves (b : Board) (d : Nat) (p e : PlayerColor) :
    StruggleMove.SkipTurn ∉ genMoves b d p e := by
  intro hm
  rcases List.mem_append.1 hm with hHome | hPieces
  · unfold homeMoves at hHome
    by_cases hc : b.home_bases p > 0 ∧ d = 6
    · rw [if_pos hc] at hHome
      cases hg : b.tiles.getD (getStart p) none with
      | none => rw [hg] at hHome; simp at hHome
      | some other =>
        rw [hg] at hHome
        by_cases ho : other = p
        · simp [ho] at hHome
        · simp [ho] at hHome
    · rw [if_neg hc] at hHome; simp at hHome
  · rcases List.mem_flatMap.1 hPieces with ⟨pc, hpc, hmove⟩
    cases pc with
    | Board pos =>
      simp only [pieceMoves] at hmove
      split at hmove
      · split at hmove <;> simp at hmove
      · split at hmove
        · simp at hmove
        · rename_i q hdest
          by_cases hq : q = p
          · rw [if_pos hq] at hmove; simp at hmove
          · rw [if_neg hq] at hmove; simp at hmove
    | Goal i =>
      simp only [pieceMoves] at hmove
      split at hmove <;> simp at hmove

/-! ## C5: the skip sentinel -/

/-- C5.  For every board, colors and die value 1–6 the move generator
returns a non-empty list; it returns exactly `[SkipTurn]` precisely when
it generated no enter-from-home, ring-advance, goal-entry or in-goal move
(`genMoves` collects exactly those four kinds), and the sentinel never
appears alongside any other move. -/
theorem skip_sentinel (b : Board) (d : Nat) (p e : PlayerColor)
    (h1 : 1 ≤ d) (h6 : d ≤ 6) :
    getMovesB b d p e ≠ [] ∧
    (getMovesB b d p e = [StruggleMove.SkipTurn] ↔ genMoves b d p e = []) ∧
    (StruggleMove.SkipTurn ∈ getMovesB b d p e →
      getMovesB b d p e = [StruggleMove.SkipTurn]) := by
  unfold getMovesB
  by_cases hg : genMoves b d p e = []
  · rw [if_pos hg]
    exact ⟨by simp, by simp [hg], fun _ => rfl⟩
  · rw [if_neg hg]
    refine ⟨hg, ⟨fun hh => ?_, fun hh => absurd hh hg⟩, fun hmem => ?_⟩
    · exact absurd (hh ▸ List.mem_singleton_self _) (skip_not_mem_genMoves b d p e)
    · exact absurd hmem (skip_not_mem_genMoves b d p e)

/-- Witness for C5 on concrete boards: a fresh board with die 1 yields
exactly the skip sentinel. -/
theorem skip_sentinel_witness :
    getMovesB bFresh 1 .Red .Yellow ≠ [] :=
  (skip_sentinel bFresh 1 .Red .Yellow (by decide) (by decide)).1

/-! ## Invariant preservation of `Board::perform_move` -/

theorem pieceCount_updateCache (b : Board) (c : PlayerColor) :
    pieceCount (updatePieceCache b) c = pieceCount b c := rfl

/-- Applying any move satisfying its generation-site facts preserves every
color's piece count (home + ring + own goal). -/
theorem performMove_pieceCount (b : Board) (p : PlayerColor) (m : StruggleMove)
    (hf : MoveFacts b p m) :
    ∀ c, pieceCount (performMove b p m) c = pieceCount b c := by
  intro c
  cases m with
  | SkipTurn => rfl
  | AddNewPiece eats =>
    cases eats with
    | false =>
      obtain ⟨hhome, hstart, hcell⟩ := hf
      have hcnt := cnt_set (some c) b.tiles (getStart p) none (some p) hcell
      simp only [performMove, updatePieceCache, pieceCount, Bool.false_eq_true, if_false,
        decHome]
      by_cases hc : c = p
      · subst hc
        rw [if_pos (by trivial)]
        simp at hcnt
        omega
      · rw [if_neg hc]
        simp [Ne.symm hc] at hcnt
        omega
    | true =>
      obtain ⟨hhome, hstart, q, hq, hcell⟩ := hf
      have hgd : b.tiles.getD (getStart p) none = some q :=
        (getD_none_eq_some_iff _ _ _).2 hcell
      have hcnt := cnt_set (some c) b.tiles (getStart p) (some q) (some p) hcell
      simp only [performMove, updatePieceCache, pieceCount, if_true, hgd, decHome, bumpHome]
      by_cases hc : c = p
      · subst hc
        rw [if_pos (by trivial), if_neg (fun hh : c = q => hq hh.symm)]
        simp [hq] at hcnt
        omega
      · rw [if_neg hc]
        by_cases hcq : c = q
        · subst hcq
          rw [if_pos (by trivial)]
          simp [Ne.symm hc] at hcnt
          omega
        · rw [if_neg hcq]
          simp [Ne.symm hc, Ne.symm hcq] at hcnt
          omega
  | MovePiece from_ to_ eats =>
    have hfrom : b.tiles.get? from_ = some (some p) := by
      cases eats <;> exact hf.1
    have hgdfrom : b.tiles.getD from_ none = some p :=
      (getD_none_eq_some_iff _ _ _).2 hfrom
    cases eats with
    | false =>
      obtain ⟨_, hto, hcell⟩ := hf
      have hne : from_ ≠ to_ := fun hh => by rw [hh, hcell] at hfrom; simp at hfrom
      have hcnt1 := cnt_set (some c) b.tiles to_ none (some p) hcell
      have hget1 : (b.tiles.set to_ (some p)).get? from_ = some (some p) := by
        rw [List.get?_set_ne _ _ (fun hh => hne hh.symm)]
        exact hfrom
      have hcnt2 := cnt_set (some c) (b.tiles.set to_ (some p)) from_ (some p) none hget1
      simp only [performMove, updatePieceCache, pieceCount, Bool.false_eq_true, if_false,
        hgdfrom]
      by_cases hc : c = p
      · subst hc
        simp at hcnt1 hcnt2
        omega
      · simp [Ne.symm hc] at hcnt1 hcnt2
        omega
    | true =>
      obtain ⟨_, hto, q, hq, hcell⟩ := hf
      have hgdto : b.tiles.getD to_ none = some q :=
        (getD_none_eq_some_iff _ _ _).2 hcell
      have hne : from_ ≠ to_ := fun hh => by
        rw [hh, hcell] at hfrom
        injection hfrom with hfrom
        injection hfrom with hfrom
        exact hq hfrom
      have hcnt1 := cnt_set (some c) b.tiles to_ (some q) (some p) hcell
      have hget1 : (b.tiles.set to_ (some p)).get? from_ = some (some p) := by
        rw [List.get?_set_ne _ _ (fun hh => hne hh.symm)]
        exact hfrom
      have hcnt2 := cnt_set (some c) (b.tiles.set to_ (some p)) from_ (some p) none hget1
      simp only [performMove, updatePieceCache, pieceCount, if_true, hgdfrom, hgdto, bumpHome]
      by_cases hcq : c = q
      · subst hcq
        rw [if_pos (by trivial)]
        simp [fun hh : p = c => hq hh.symm] at hcnt1 hcnt2
        omega
      · rw [if_neg hcq]
        by_cases hc : c = p
        · subst hc
          simp [Ne.symm hcq] at hcnt1 hcnt2
          omega
        · simp [Ne.symm hcq, Ne.symm hc] at hcnt1 hcnt2
          omega
  | MoveToGoal from_board to_goal =>
    obtain ⟨hfrom, hslot⟩ := hf
    have hgdfrom : b.tiles.getD from_board none = some p :=
      (getD_none_eq_some_iff _ _ _).2 hfrom
    have hcntT := cnt_set (some c) b.tiles from_board (some p) none hfrom
    have hcntG := goalCount_set (b.goals p) to_goal none (some p) hslot
    simp only [performMove, updatePieceCache, pieceCount, hgdfrom]
    by_cases hc : c = p
    · subst hc
      rw [if_pos (by trivial)]
      simp at hcntT hcntG
      omega
    · rw [if_neg hc]
      simp [Ne.symm hc] at hcntT
      omega
  | MoveInGoal from_goal to_goal =>
    obtain ⟨⟨q, hfrom⟩, hslot⟩ := hf
    have hgdfrom : (b.goals p).getD from_goal none = some q :=
      (getD_none_eq_some_iff _ _ _).2 hfrom
    have hne : from_goal ≠ to_goal := fun hh => by rw [hh, hslot] at hfrom; simp at hfrom
    have hcnt1 := goalCount_set (b.goals p) to_goal none (some q) hslot
    have hget1 : ((b.goals p).set to_goal (some q)).get? from_goal = some (some q) := by
      rw [List.get?_set_ne _ _ (fun hh => hne hh.symm)]
      exact hfrom
    have hcnt2 := goalCount_set ((b.goals p).set to_goal (some q)) from_goal (some q) none hget1
    simp only [performMove, updatePieceCache, pieceCount, hgdfrom]
    by_cases hc : c = p
    · subst hc
      rw [if_pos (by trivial)]
      simp at hcnt1 hcnt2
      omega
    · rw [if_neg hc]

/-! ## Soundness of the rotating-variant move generator -/

/-- Membership and length of the cached piece list, rotating variant. -/
theorem twistPieces_spec (b : TwistBoard) (p : PlayerColor) (hWF : TwistBoardWF b)
    (hp : p = b.players.1 ∨ p = b.players.2) :
    (∀ pos, PiecePosition.Board pos ∈ (getPiecesT b p).1 →
      b.tiles.get? pos = some (some p)) ∧
    (∀ i, PiecePosition.Goal i ∈ (getPiecesT b p).1 →
      ∃ q, (b.goals p).get? i = some (some q)) := by
  obtain ⟨hlen, hglen, honly, hcache, hcount⟩ := hWF
  have honly' : ∀ c ∈ b.tiles, ∀ q, c = some q → q = b.players.1 ∨ q = b.players.2 := by
    intro c hc q hq
    rcases List.get_of_mem hc with ⟨n, rfl⟩
    exact honly n q (by rw [List.get?_eq_get n.isLt]; simpa using congrArg some hq)
  by_cases h1 : p = b.players.1
  · have hsel : (getPiecesT b p).1 =
        ownTilePositions b.players.1 0 b.tiles ++
          occupiedGoalPositions 0 (b.goals b.players.1) := by
      unfold getPiecesT
      rw [if_pos h1, hcache]
      rfl
    constructor
    · intro pos hpos
      rw [hsel] at hpos
      rcases List.mem_append.1 hpos with hmem | hmem
      · rcases mem_ownTilePositions _ _ _ _ hmem with ⟨j, hj, _, hget⟩
        injection hj with hj; subst hj
        rw [h1]
        simpa using hget
      · rcases mem_occupiedGoalPositions _ _ _ hmem with ⟨j, q, hj, _, _⟩
        exact absurd hj (by simp)
    · intro i hi
      rw [hsel] at hi
      rcases List.mem_append.1 hi with hmem | hmem
      · rcases mem_ownTilePositions _ _ _ _ hmem with ⟨j, hj, _, _⟩
        exact absurd hj (by simp)
      · rcases mem_occupiedGoalPositions _ _ _ hmem with ⟨j, q, hj, _, hget⟩
        injection hj with hj; subst hj
        rw [h1]
        exact ⟨q, by simpa using hget⟩
  · have h2 : p = b.players.2 := hp.resolve_left h1
    have hsel : (getPiecesT b p).1 =
        enemyTilePositions b.players.1 0 b.tiles ++
          occupiedGoalPositions 0 (b.goals b.players.2) := by
      unfold getPiecesT
      rw [if_neg h1, hcache]
      rfl
    constructor
    · intro pos hpos
      rw [hsel] at hpos
      rcases List.mem_append.1 hpos with hmem | hmem
      · rcases mem_enemyTilePositions _ _ _ _ hmem with ⟨j, q, hj, hq, _, hget⟩
        injection hj with hj; subst hj
        simp only [Nat.sub_zero] at hget
        have hqp : q = b.players.1 ∨ q = b.players.2 := honly pos q hget
        have hqeq : q = p := by
          rcases hqp with hh | hh
          · exact absurd hh hq
          · rw [hh, h2]
        rw [← hqeq]
        exact hget
      · rcases mem_occupiedGoalPositions _ _ _ hmem with ⟨j, q, hj, _, _⟩
        exact absurd hj (by simp)
    · intro i hi
      rw [hsel] at hi
      rcases List.mem_append.1 hi with hmem | hmem
      · rcases mem_enemyTilePositions _ _ _ _ hmem with ⟨j, q, hj, _, _, _⟩
        exact absurd hj (by simp)
      · rcases mem_occupiedGoalPositions _ _ _ hmem with ⟨j, q, hj, _, hget⟩
        injection hj with hj; subst hj
        rw [h2]
        exact ⟨q, by simpa using hget⟩

theorem scanGoalSlots_free (g : List BoardCell) :
    ∀ n j, scanGoalSlots g n = some j → g.get? j = some none := by
  intro n
  induction n with
  | zero => intro j h; simp [scanGoalSlots] at h
  | succ k ih =>
    intro j h
    unfold scanGoalSlots at h
    by_cases hk : g.get? k = some none
    · rw [if_pos hk] at h
      injection h with h; subst h
      exact hk
    · rw [if_neg hk] at h
      exact ih j h

theorem createMoveToPos_facts (b : TwistBoard) (p : PlayerColor) (f : MoveFrom) (t : Nat)
    (hlen : t < b.tiles.length)
    (hff : match f with
      | .Home => True
      | .Board pos => b.tiles.get? pos = some (some p)) :
    ∀ m, createMoveToPos b p f t = some m → TwistMoveFacts b p m := by
  intro m hm
  unfold createMoveToPos at hm
  by_cases hhome : f = MoveFrom.Home ∧ ¬ b.home_bases p > 0
  · rw [if_pos hhome] at hm; exact absurd hm (by simp)
  · rw [if_neg hhome] at hm
    cases hg : b.tiles.getD t none with
    | none =>
      rw [hg] at hm
      simp at hm; subst hm
      refine ⟨?_, hlen, getD_none_eq_none _ _ hlen hg⟩
      cases f with
      | Home =>
        by_contra hb
        exact hhome ⟨rfl, hb⟩
      | Board pos => exact hff
    | some target =>
      rw [hg] at hm
      by_cases ht : target = p
      · simp [ht] at hm
      · simp [ht] at hm; subst hm
        refine ⟨?_, hlen, target, ht, (getD_none_eq_some_iff _ _ _).1 hg⟩
        cases f with
        | Home =>
          by_contra hb
          exact hhome ⟨rfl, hb⟩
        | Board pos => exact hff

theorem twistPieceMoves_facts (b : TwistBoard) (d : Nat) (p : PlayerColor)
    (hlen : b.tiles.length = TwistBoard.TILES) (pc : PiecePosition)
    (hpc : match pc with
      | .Board pos => b.tiles.get? pos = some (some p)
      | .Goal _ => True) :
    ∀ m ∈ twistPieceMoves b d p pc, TwistMoveFacts b p m := by
  intro m hm
  cases pc with
  | Goal i => simp [twistPieceMoves] at hm
  | Board pos =>
    simp only [twistPieceMoves] at hm
    have hnew : (pos + d) % TwistBoard.TILES < b.tiles.length := by
      rw [hlen]; exact Nat.mod_lt _ (by decide)
    split at hm
    · -- can reach the entrance or beyond
      split at hm
      · -- exactly the entrance: a normal move
        cases hm' : createMoveToPos b p (.Board pos) ((pos + d) % TwistBoard.TILES) with
        | none => rw [hm'] at hm; simp at hm
        | some mv =>
          rw [hm'] at hm
          simp at hm; subst hm
          exact createMoveToPos_facts b p _ _ hnew hpc m hm'
      · -- into the goal track
        split at hm
        · rename_i i hscan
          simp at hm; subst hm
          exact ⟨hpc, scanGoalSlots_free _ _ i hscan⟩
        · simp at hm
    · -- plain advance
      cases hm' : createMoveToPos b p (.Board pos) ((pos + d) % TwistBoard.TILES) with
      | none => rw [hm'] at hm; simp at hm
      | some mv =>
        rw [hm'] at hm
        simp at hm; subst hm
        exact createMoveToPos_facts b p _ _ hnew hpc m hm'

/-- Every number-die sub-move the rotating-variant generator emits
satisfies its generation-site facts. -/
theorem twistNumberMoves_facts (b : TwistBoard) (dice : DieResult) (p e : PlayerColor)
    (hWF : TwistBoardWF b) (hp : p = b.players.1 ∨ p = b.players.2) :
    ∀ m ∈ twistNumberMoves b dice p e, TwistMoveFacts b p m := by
  intro m hm
  unfold twistNumberMoves at hm
  rcases List.mem_append.1 hm with hL | hNothing
  · rcases List.mem_append.1 hL with hHome | hPieces
    · have hstart : twistStart p < b.tiles.length := by
        rw [hWF.1]; cases p <;> decide
      by_cases hc : ((getPiecesT b p).1.countP fun pc =>
          match pc with | .Board _ => true | _ => false) = 0 ∨ dice.number = 6
      · by_cases hb : b.home_bases p > 0
        · rw [if_pos ⟨hc, hb⟩] at hHome
          cases hm' : createMoveToPos b p .Home (twistStart p) with
          | none => rw [hm'] at hHome; simp at hHome
          | some mv =>
            rw [hm'] at hHome
            simp at hHome; subst hHome
            exact createMoveToPos_facts b p _ _ hstart trivial m hm'
        · rw [if_neg (fun hh => hb hh.2)] at hHome; simp at hHome
      · rw [if_neg (fun hh => hc hh.1)] at hHome; simp at hHome
    · rcases List.mem_flatMap.1 hPieces with ⟨pc, hpcmem, hmove⟩
      obtain ⟨hboard, hgoal⟩ := twistPieces_spec b p hWF hp
      cases pc with
      | Board pos =>
        exact twistPieceMoves_facts b dice.number p hWF.1 _ (hboard pos hpcmem) m hmove
      | Goal i =>
        exact twistPieceMoves_facts b dice.number p hWF.1 _ trivial m hmove
  · simp at hNothing; subst hNothing
    trivial

/-! ## Invariant preservation of `TwistBoard::perform_move` -/

theorem cnt_rotateSpinSection (y : BoardCell) (tiles : List BoardCell) (s : SpinSection) :
    cnt y (rotateSpinSection tiles s) = cnt y tiles := by
  unfold rotateSpinSection cnt
  rw [List.countP_append, List.countP_append,
    (List.reverse_perm _).countP_eq]
  have hsplit : tiles.countP (fun c => decide (c = y)) =
      (tiles.take (spinStart s)).countP (fun c => decide (c = y)) +
        (tiles.drop (spinStart s)).countP (fun c => decide (c = y)) := by
    conv_lhs => rw [← List.take_append_drop (spinStart s) tiles]
    rw [List.countP_append]
  have hsplit2 : (tiles.drop (spinStart s)).countP (fun c => decide (c = y)) =
      ((tiles.drop (spinStart s)).take 5).countP (fun c => decide (c = y)) +
        ((tiles.drop (spinStart s)).drop 5).countP (fun c => decide (c = y)) := by
    conv_lhs => rw [← List.take_append_drop 5 (tiles.drop (spinStart s))]
    rw [List.countP_append]
  rw [hsplit, hsplit2, List.drop_drop]
  ring_nf

/-- The action-die sub-move never changes any color's piece count. -/
theorem applyActionMove_pieceCount (b : TwistBoard) (am : ActionDieMove) (c : PlayerColor) :
    pieceCountT (applyActionMove b am) c = pieceCountT b c := by
  cases am with
  | DoNothing => rfl
  | RotateBoard => rfl
  | SpinSection s =>
    unfold applyActionMove pieceCountT
    rw [cnt_rotateSpinSection]

/-- The number-die sub-move preserves every color's piece count, given its
generation-site facts. -/
theorem applyNumberMove_pieceCount (b : TwistBoard) (p : PlayerColor) (nm : NumberDieMove)
    (hf : TwistMoveFacts b p nm) :
    ∀ c, pieceCountT (applyNumberMove b p nm) c = pieceCountT b c := by
  intro c
  cases nm with
  | DoNothing => rfl
  | MoveToGoal from_board to_goal =>
    obtain ⟨hfrom, hslot⟩ := hf
    have hcntT := cnt_set (some c) b.tiles from_board (some p) none hfrom
    have hcntG := goalCount_set (b.goals p) to_goal none (some p) hslot
    simp only [applyNumberMove, pieceCountT]
    by_cases hc : c = p
    · subst hc
      rw [if_pos (by trivial)]
      simp at hcntT hcntG
      omega
    · rw [if_neg hc]
      simp [Ne.symm hc] at hcntT
      omega
  | MovePiece from_ to_ eats =>
    cases from_ with
    | Home =>
      cases eats with
      | false =>
        obtain ⟨hfrom, hto, heats⟩ := hf
        have hcnt := cnt_set (some c) b.tiles to_ none (some p) heats
        simp only [applyNumberMove, Bool.false_eq_true, if_false, pieceCountT, decHome]
        by_cases hc : c = p
        · subst hc
          rw [if_pos (by trivial)]
          simp at hcnt
          omega
        · rw [if_neg hc]
          simp [Ne.symm hc] at hcnt
          omega
      | true =>
        obtain ⟨hfrom, hto, q, hq, hcell⟩ := hf
        have hgdto : b.tiles.getD to_ none = some q :=
          (getD_none_eq_some_iff _ _ _).2 hcell
        have hcnt := cnt_set (some c) b.tiles to_ (some q) (some p) hcell
        simp only [applyNumberMove, if_true, hgdto, pieceCountT, decHome, bumpHome]
        by_cases hc : c = p
        · subst hc
          rw [if_pos (by trivial), if_neg (fun hh : c = q => hq hh.symm)]
          simp [hq] at hcnt
          omega
        · rw [if_neg hc]
          by_cases hcq : c = q
          · subst hcq
            rw [if_pos (by trivial)]
            simp [Ne.symm hc] at hcnt
            omega
          · rw [if_neg hcq]
            simp [Ne.symm hc, Ne.symm hcq] at hcnt
            omega
    | Board pos =>
      cases eats with
      | false =>
        obtain ⟨hfrom0, hto, heats⟩ := hf
        have hfrom : b.tiles.get? pos = some (some p) := hfrom0
        have hnepos : pos ≠ to_ := by
          intro hh
          rw [hh, heats] at hfrom
          simp at hfrom
        have hget1 : (b.tiles.set to_ (some p)).get? pos = some (some p) := by
          rw [List.get?_set_ne _ _ (fun hh => hnepos hh.symm)]
          exact hfrom
        have hcnt1 := cnt_set (some c) b.tiles to_ none (some p) heats
        have hcnt2 := cnt_set (some c) (b.tiles.set to_ (some p)) pos (some p) none hget1
        simp only [applyNumberMove, Bool.false_eq_true, if_false, pieceCountT]
        by_cases hc : c = p
        · subst hc
          simp at hcnt1 hcnt2
          omega
        · simp [Ne.symm hc] at hcnt1 hcnt2
          omega
      | true =>
        obtain ⟨hfrom0, hto, q, hq, hcell⟩ := hf
        have hfrom : b.tiles.get? pos = some (some p) := hfrom0
        have hnepos : pos ≠ to_ := by
          intro hh
          rw [hh, hcell] at hfrom
          injection hfrom with hfrom
          injection hfrom with hfrom
          exact hq hfrom
        have hget1 : (b.tiles.set to_ (some p)).get? pos = some (some p) := by
          rw [List.get?_set_ne _ _ (fun hh => hnepos hh.symm)]
          exact hfrom
        have hgdto : b.tiles.getD to_ none = some q :=
          (getD_none_eq_some_iff _ _ _).2 hcell
        have hcnt1 := cnt_set (some c) b.tiles to_ (some q) (some p) hcell
        have hcnt2 := cnt_set (some c) (b.tiles.set to_ (some p)) pos (some p) none hget1
        simp only [applyNumberMove, if_true, hgdto, pieceCountT, bumpHome]
        by_cases hcq : c = q
        · subst hcq
          rw [if_pos (by trivial)]
          simp [fun hh : p = c => hq hh.symm] at hcnt1 hcnt2
          omega
        · rw [if_neg hcq]
          by_cases hc : c = p
          · subst hc
            simp [Ne.symm hcq] at hcnt1 hcnt2
            omega
          · simp [Ne.symm hcq, Ne.symm hc] at hcnt1 hcnt2
            omega

theorem pieceCountT_updateCache (b : TwistBoard) (c : PlayerColor) :
    pieceCountT (updatePieceCacheT b) c = pieceCountT b c := rfl

/-- `TwistBoard::perform_move` preserves every color's piece count for any
generated move. -/
theorem performMoveT_pieceCount (b : TwistBoard) (p : PlayerColor) (m : TwistMove)
    (hf : TwistMoveFacts b p m.num) :
    ∀ c, pieceCountT (performMoveT b p m) c = pieceCountT b c := by
  intro c
  unfold performMoveT
  rw [pieceCountT_updateCache, applyActionMove_pieceCount,
    applyNumberMove_pieceCount b p m.num hf]

/-! ## C4: the four-pieces-per-color invariant -/

/-- C4.  In both variants: for every well-formed board of a two-player
game satisfying the four-pieces-per-color invariant, applying any move
produced by the move generator for that board leaves every color's
`home + ring + goal` sum equal to 4. -/
theorem four_piece_invariant_preserved :
    (∀ (b : Board) (d : Nat) (p e : PlayerColor) (m : StruggleMove),
      BoardWF b → (p = b.players.1 ∨ p = b.players.2) → m ∈ getMovesB b d p e →
      ∀ c, pieceCount (performMove b p m) c = 4) ∧
    (∀ (b : TwistBoard) (dice : DieResult) (p e : PlayerColor) (m : TwistMove),
      TwistBoardWF b → (p = b.players.1 ∨ p = b.players.2) → m ∈ getTwistMoves b dice p e →
      ∀ c, pieceCountT (performMoveT b p m) c = 4) := by
  constructor
  · intro b d p e m hWF hp hm c
    have hf : MoveFacts b p m := by
      unfold getMovesB at hm
      by_cases hg : genMoves b d p e = []
      · rw [if_pos hg] at hm
        simp at hm; subst hm; trivial
      · rw [if_neg hg] at hm
        exact genMoves_facts b d p e hWF hp m hm
    rw [performMove_pieceCount b p m hf c]
    exact hWF.2.2.2.2 c
  · intro b dice p e m hWF hp hm c
    rcases List.mem_flatMap.1 hm with ⟨nm, hnm, ham⟩
    rcases List.mem_map.1 ham with ⟨am, hamm, hmk⟩
    have hf : TwistMoveFacts b p m.num := by
      rw [← hmk]
      exact twistNumberMoves_facts b dice p e hWF hp nm hnm
    rw [performMoveT_pieceCount b p m hf c]
    exact hWF.2.2.2.2 c

/-- Witness for C4: a base-variant capture from home and a rotating-variant
mobilization both leave Red's count at 4. -/
theorem four_piece_invariant_preserved_witness :
    pieceCount (performMove bEat .Red (.AddNewPiece true)) .Red = 4 ∧
      pieceCountT (performMoveT tFresh .Red ⟨.MovePiece .Home 0 false, .DoNothing⟩) .Red = 4 :=
  ⟨four_piece_invariant_preserved.1 bEat 6 .Red .Yellow (.AddNewPiece true)
      (by decide) (by decide) (by decide) .Red,
    four_piece_invariant_preserved.2 tFresh ⟨1, .DoNothing⟩ .Red .Yellow
      ⟨.MovePiece .Home 0 false, .DoNothing⟩ (by decide) (by decide) (by decide) .Red⟩

/-! ## C6: captures return exactly one enemy piece home -/

/-- C6.  For every capturing move the generator produces (`AddNewPiece` or
`MovePiece` with `eats`), applying it increments the captured color's
home-base count by exactly 1 and removes exactly one piece of that color
from the ring; the captured color is the occupant of the move's target
tile and is never the mover. -/
theorem capture_returns_piece_home (b : Board) (d : Nat) (p e : PlayerColor)
    (m : StruggleMove) (hWF : BoardWF b) (hp : p = b.players.1 ∨ p = b.players.2)
    (hm : m ∈ getMovesB b d p e) (he : m.eats = true) :
    ∃ q, q ≠ p ∧ b.tiles.get? (captureTarget p m) = some (some q) ∧
      (performMove b p m).home_bases q = b.home_bases q + 1 ∧
      cnt (some q) (performMove b p m).tiles + 1 = cnt (some q) b.tiles := by
  have hf : MoveFacts b p m := by
    unfold getMovesB at hm
    by_cases hg : genMoves b d p e = []
    · rw [if_pos hg] at hm
      simp at hm; subst hm; trivial
    · rw [if_neg hg] at hm
      exact genMoves_facts b d p e hWF hp m hm
  cases m with
  | SkipTurn => simp [StruggleMove.eats] at he
  | MoveToGoal x y => simp [StruggleMove.eats] at he
  | MoveInGoal x y => simp [StruggleMove.eats] at he
  | AddNewPiece eats =>
    simp [StruggleMove.eats] at he
    subst he
    obtain ⟨hhome, hstart, q, hq, hcell⟩ := hf
    have hgd : b.tiles.getD (getStart p) none = some q :=
      (getD_none_eq_some_iff _ _ _).2 hcell
    refine ⟨q, hq, hcell, ?_, ?_⟩
    · simp only [performMove, updatePieceCache, if_true, hgd, decHome, bumpHome]
      rw [if_neg (fun hh : q = p => hq hh)]
    · have hcnt := cnt_set (some q) b.tiles (getStart p) (some q) (some p) hcell
      simp only [performMove, updatePieceCache, if_true, hgd]
      simp [(Ne.symm hq : p ≠ q)] at hcnt
      omega
  | MovePiece from_ to_ eats =>
    simp [StruggleMove.eats] at he
    subst he
    obtain ⟨hfrom, hto, q, hq, hcell⟩ := hf
    have hgdfrom : b.tiles.getD from_ none = some p :=
      (getD_none_eq_some_iff _ _ _).2 hfrom
    have hgdto : b.tiles.getD to_ none = some q :=
      (getD_none_eq_some_iff _ _ _).2 hcell
    have hne : from_ ≠ to_ := fun hh => by
      rw [hh, hcell] at hfrom
      injection hfrom with hfrom
      injection hfrom with hfrom
      exact hq hfrom
    refine ⟨q, hq, hcell, ?_, ?_⟩
    · simp only [performMove, updatePieceCache, if_true, hgdto, bumpHome]
    · have hcnt1 := cnt_set (some q) b.tiles to_ (some q) (some p) hcell
      have hget1 : (b.tiles.set to_ (some p)).get? from_ = some (some p) := by
        rw [List.get?_set_ne _ _ (fun hh => hne hh.symm)]
        exact hfrom
      have hcnt2 := cnt_set (some q) (b.tiles.set to_ (some p)) from_ (some p) none hget1
      simp only [performMove, updatePieceCache, if_true, hgdfrom, hgdto]
      simp [(Ne.symm hq : p ≠ q)] at hcnt1 hcnt2
      omega

/-- Witness for C6: capturing the Yellow piece sitting on Red's start. -/
theorem capture_returns_piece_home_witness :
    ∃ q, q ≠ PlayerColor.Red ∧
      bEat.tiles.get? (captureTarget .Red (.AddNewPiece true)) = some (some q) ∧
      (performMove bEat .Red (.AddNewPiece true)).home_bases q = bEat.home_bases q + 1 ∧
      cnt (some q) (performMove bEat .Red (.AddNewPiece true)).tiles + 1 =
        cnt (some q) bEat.tiles :=
  capture_returns_piece_home bEat 6 .Red .Yellow (.AddNewPiece true)
    (by decide) (by decide) (by decide) (by decide)

/-! ## C9: no overflow, no panic -/

theorem pieceMoves_length_le_one (b : Board) (d : Nat) (p : PlayerColor)
    (pc : PiecePosition) : (pieceMoves b d p pc).length ≤ 1 := by
  cases pc with
  | Board pos =>
    simp only [pieceMoves]
    split
    · split <;> simp
    · split
      · simp
      · split <;> simp
  | Goal i =>
    simp only [pieceMoves]
    split <;> simp

theorem flatMap_length_le (l : List PiecePosition) (f : PiecePosition → List StruggleMove)
    (h : ∀ a ∈ l, (f a).length ≤ 1) : (l.flatMap f).length ≤ l.length := by
  induction l with
  | nil => simp
  | cons hd tl ih =>
    rw [List.flatMap_cons, List.length_append]
    have h1 := h hd (by simp)
    have h2 := ih (fun a ha => h a (by simp [ha]))
    simp only [List.length_cons]
    omega

theorem homeMoves_length (b : Board) (d : Nat) (p : PlayerColor) :
    (homeMoves b d p).length ≤ 1 ∧
      (b.home_bases p = 0 → homeMoves b d p = []) := by
  constructor
  · unfold homeMoves
    split
    · split
      · split <;> simp
      · simp
    · simp
  · intro h0
    unfold homeMoves
    rw [if_neg (fun hh => by omega)]

theorem moveFacts_safe (b : Board) (p : PlayerColor) (m : StruggleMove)
    (hf : MoveFacts b p m) : SafeMove b p m := by
  cases m with
  | SkipTurn => trivial
  | AddNewPiece eats =>
    cases eats with
    | false => exact ⟨hf.1, hf.2.1, by simp⟩
    | true => exact ⟨hf.1, hf.2.1, fun _ => hf.2.2⟩
  | MovePiece from_ to_ eats =>
    cases eats with
    | false => exact ⟨(List.get?_eq_some.1 hf.1).1, hf.2.1, by simp⟩
    | true => exact ⟨(List.get?_eq_some.1 hf.1).1, hf.2.1, fun _ => hf.2.2⟩
  | MoveToGoal from_board to_goal =>
    exact ⟨(List.get?_eq_some.1 hf.1).1, (List.get?_eq_some.1 hf.2).1⟩
  | MoveInGoal from_goal to_goal =>
    obtain ⟨⟨q, hq⟩, hslot⟩ := hf
    exact ⟨(List.get?_eq_some.1 hq).1, (List.get?_eq_some.1 hslot).1⟩

/-- C9.  On a well-formed board (4-pieces invariant, fresh cache) the
generator never produces more than 4 moves (the `ArrayVec<_, 4>` cannot
overflow), and applying any generated move reaches no panic branch of
`perform_move`: the eats-`expect`s find an enemy piece at the target, the
home-base removal succeeds, and every tile and goal index is in bounds. -/
theorem generator_safety (b : Board) (d : Nat) (p e : PlayerColor)
    (hWF : BoardWF b) (hp : p = b.players.1 ∨ p = b.players.2) :
    (getMovesB b d p e).length ≤ 4 ∧ ∀ m ∈ getMovesB b d p e, SafeMove b p m := by
  have hlenGen : (genMoves b d p e).length ≤ 4 := by
    unfold genMoves
    rw [List.length_append]
    have hpieces := flatMap_length_le (getPieces b p).1 (pieceMoves b d p)
      (fun a _ => pieceMoves_length_le_one b d p a)
    have hplen := (pieces_spec b p hWF hp).2.2
    have hinv := hWF.2.2.2.2 p
    unfold pieceCount at hinv
    by_cases h0 : b.home_bases p = 0
    · rw [(homeMoves_length b d p).2 h0]
      simp only [List.length_nil]
      omega
    · have h1 := (homeMoves_length b d p).1
      omega
  constructor
  · unfold getMovesB
    by_cases hg : genMoves b d p e = []
    · rw [if_pos hg]; simp
    · rw [if_neg hg]; exact hlenGen
  · intro m hm
    unfold getMovesB at hm
    by_cases hg : genMoves b d p e = []
    · rw [if_pos hg] at hm
      simp at hm; subst hm; trivial
    · rw [if_neg hg] at hm
      exact moveFacts_safe b p m (genMoves_facts b d p e hWF hp m hm)

/-- Witness for C9 at a concrete board. -/
theorem generator_safety_witness :
    (getMovesB bEat 6 .Red .Yellow).length ≤ 4 :=
  (generator_safety bEat 6 .Red .Yellow (by decide) (by decide)).1

/-! ## XQ order facts -/

theorem XQ.leRefl (x : XQ) : x ≤ x := by
  cases x with
  | negInf => trivial
  | posInf => trivial
  | fin a => exact (XQ.fin_le_fin a a).2 le_rfl

theorem XQ.leTrans {x y z : XQ} (h1 : x ≤ y) (h2 : y ≤ z) : x ≤ z := by
  cases x <;> cases y <;> cases z <;>
    first
      | trivial
      | exact (XQ.fin_le_fin _ _).2
          (le_trans ((XQ.fin_le_fin _ _).1 h1) ((XQ.fin_le_fin _ _).1 h2))

theorem XQ.leTotal (x y : XQ) : x ≤ y ∨ y ≤ x := by
  cases x with
  | negInf => exact Or.inl (XQ.negInf_le y)
  | posInf =>
    cases y with
    | posInf => exact Or.inl (XQ.le_posInf _)
    | negInf => exact Or.inr (XQ.negInf_le _)
    | fin b => exact Or.inr (XQ.le_posInf _)
  | fin a =>
    cases y with
    | posInf => exact Or.inl (XQ.le_posInf _)
    | negInf => exact Or.inr (XQ.negInf_le _)
    | fin b =>
      rcases le_total a b with hab | hab
      · exact Or.inl ((XQ.fin_le_fin a b).2 hab)
      · exact Or.inr ((XQ.fin_le_fin b a).2 hab)

theorem XQ.posInf_le_iff (x : XQ) : (XQ.posInf ≤ x) ↔ x = XQ.posInf := by
  cases x <;> simp

theorem XQ.le_negInf_iff (x : XQ) : (x ≤ XQ.negInf) ↔ x = XQ.negInf := by
  cases x <;> simp

theorem XQ.max_ne_posInf {a b : XQ} (ha : a ≠ .posInf) (hb : b ≠ .posInf) :
    XQ.max a b ≠ .posInf := by
  unfold XQ.max
  split <;> assumption

theorem XQ.min_ne_negInf {a b : XQ} (ha : a ≠ .negInf) (hb : b ≠ .negInf) :
    XQ.min a b ≠ .negInf := by
  unfold XQ.min
  split <;> assumption

/-! ## C1: the chance-layer face weights -/

/-- Unfolding of the unpruned chance layer at a non-terminal node. -/
theorem expectiminimaxFull_succ (h : Heuristic) (ν : SortNoise) (b : Board)
    (cur maxp minp : PlayerColor) (fuel : Nat) (α β : XQ) :
    expectiminimaxFull h ν b cur maxp minp (fuel + 1) α β =
      (FACES.foldl
        (fun (acc : XQ) dice =>
          acc.add ((faceValueFullWith
            (fun b' c' α' β' => expectiminimaxFull h ν b' c' maxp minp fuel α' β')
            ν b cur maxp minp α β dice).scale (faceMultiplier dice)))
        (XQ.fin 0)).scale (1 / 6) := rfl

/-- Unfolding of the chance layer of `expectiminimax` through `emmFace`. -/
theorem expectiminimax_succ (h : Heuristic) (ν : SortNoise) (b : Board)
    (cur maxp minp : PlayerColor) (fuel : Nat) (α β : XQ) :
    expectiminimax h ν b cur maxp minp (fuel + 1) α β =
      (FACES.foldl
        (fun (acc : XQ) dice =>
          acc.add ((emmFace h ν b cur maxp minp fuel α β dice).scale (faceMultiplier dice)))
        (XQ.fin 0)).scale (1 / 6) := rfl

/-- C1 (amended).  At every non-terminal node the chance layer combines
the six adversarial-layer face scores with weight 1/6 for faces 1–5 but
weight 1/36 for the extra-turn face 6 (the source multiplies face 6 by an
extra `1/6` before the final division by 6). -/
theorem chance_layer_weights (h : Heuristic) (ν : SortNoise) (b : Board)
    (cur maxp minp : PlayerColor) (fuel : Nat) (α β : XQ) (s1 s2 s3 s4 s5 s6 : ℚ)
    (h1 : emmFace h ν b cur maxp minp fuel α β 1 = .fin s1)
    (h2 : emmFace h ν b cur maxp minp fuel α β 2 = .fin s2)
    (h3 : emmFace h ν b cur maxp minp fuel α β 3 = .fin s3)
    (h4 : emmFace h ν b cur maxp minp fuel α β 4 = .fin s4)
    (h5 : emmFace h ν b cur maxp minp fuel α β 5 = .fin s5)
    (h6 : emmFace h ν b cur maxp minp fuel α β 6 = .fin s6) :
    expectiminimax h ν b cur maxp minp (fuel + 1) α β =
      .fin ((s1 + s2 + s3 + s4 + s5) / 6 + s6 / 36) := by
  rw [expectiminimax_succ]
  simp only [FACES, List.foldl_cons, List.foldl_nil, h1, h2, h3, h4, h5, h6, faceMultiplier]
  norm_num [XQ.scale, XQ.add]
  ring

/-- Counterexample for C1 as stated: on a concrete board the node value
differs from the spec's uniform-1/6 chance layer (`uniformChanceLayer`,
built from the same face scores). -/
theorem chance_layer_weights_counterexample :
    expectiminimax minimalHeuristic nu0 bOneRed .Red .Red .Yellow 1 .negInf .posInf ≠
      uniformChanceLayer minimalHeuristic nu0 bOneRed .Red .Red .Yellow 0 .negInf .posInf := by
  with_unfolding_all decide

/-- Witness for the amended C1 at a concrete board (face scores
`1,1,1,1,1` and `2`; the node value is `5/6 + 2/36 = 8/9`). -/
theorem chance_layer_weights_witness :
    expectiminimax minimalHeuristic nu0 bOneRed .Red .Red .Yellow 1 .negInf .posInf =
      .fin ((1 + 1 + 1 + 1 + 1) / 6 + 2 / 36) :=
  chance_layer_weights minimalHeuristic nu0 bOneRed .Red .Red .Yellow 0 .negInf .posInf
    1 1 1 1 1 2 (by with_unfolding_all decide) (by with_unfolding_all decide)
    (by with_unfolding_all decide) (by with_unfolding_all decide)
    (by with_unfolding_all decide) (by with_unfolding_all decide)

/-! ## C2: alpha-beta pruning is not value-preserving beyond depth 1 -/

theorem scanMax_posInf_eq_full (rec : Board → PlayerColor → XQ → XQ → XQ)
    (hrec : ∀ b c α β, rec b c α β ≠ .posInf)
    (b : Board) (mover other : PlayerColor) (d : Nat) :
    ∀ (moves : List StruggleMove) (maxScore α : XQ), maxScore ≠ .posInf →
      scanMax rec b mover other d .posInf moves maxScore α =
        scanMaxFull rec b mover other d .posInf moves maxScore α := by
  intro moves
  induction moves with
  | nil => intro maxScore α hms; rfl
  | cons mov rest ih =>
    intro maxScore α hms
    simp only [scanMax, scanMaxFull]
    cases hw : getWinnerB (withMove b mover mov) with
    | some w =>
      by_cases hwm : w = mover <;> simp [hwm]
    | none =>
      simp only []
      have hne : XQ.max maxScore (rec (withMove b mover mov)
          (if d = 6 then mover else other) α .posInf) ≠ .posInf :=
        XQ.max_ne_posInf hms (hrec _ _ _ _)
      rw [if_neg (fun hle => hne ((XQ.posInf_le_iff _).1 hle))]
      simp only [Bool.false_eq_true, if_false]
      exact ih _ _ hne

theorem scanMin_negInf_eq_full (rec : Board → PlayerColor → XQ → XQ → XQ)
    (hrec : ∀ b c α β, rec b c α β ≠ .negInf)
    (b : Board) (mover other : PlayerColor) (d : Nat) :
    ∀ (moves : List StruggleMove) (minScore β : XQ), minScore ≠ .negInf →
      scanMin rec b mover other d .negInf moves minScore β =
        scanMinFull rec b mover other d .negInf moves minScore β := by
  intro moves
  induction moves with
  | nil => intro minScore β hms; rfl
  | cons mov rest ih =>
    intro minScore β hms
    simp only [scanMin, scanMinFull]
    cases hw : getWinnerB (withMove b mover mov) with
    | some w =>
      by_cases hwm : w = mover <;> simp [hwm]
    | none =>
      simp only []
      have hne : XQ.min minScore (rec (withMove b mover mov)
          (if d = 6 then mover else other) .negInf β) ≠ .negInf :=
        XQ.min_ne_negInf hms (hrec _ _ _ _)
      rw [if_neg (fun hle => hne ((XQ.le_negInf_iff _).1 hle))]
      simp only [Bool.false_eq_true, if_false]
      exact ih _ _ hne

/-- C2 (amended, positive part).  With the root window
`(-∞, +∞)` and depth bound 1, the pruned and unpruned searches agree on
every board, for every heuristic and RNG abstraction: at depth 1 neither
the `max_score >= beta` nor the `min_score <= alpha` cutoff can fire. -/
theorem ab_prune_depth1_exact (h : Heuristic) (ν : SortNoise) (b : Board)
    (cur maxp minp : PlayerColor) :
    expectiminimax h ν b cur maxp minp 1 .negInf .posInf =
      expectiminimaxFull h ν b cur maxp minp 1 .negInf .posInf := by
  have hrecP : ∀ (b' : Board) (c' : PlayerColor) (α' β' : XQ),
      expectiminimax h ν b' c' maxp minp 0 α' β' ≠ XQ.posInf := by
    intro b' c' α' β' hcontra
    exact absurd hcontra (by simp [expectiminimax])
  have hrecN : ∀ (b' : Board) (c' : PlayerColor) (α' β' : XQ),
      expectiminimax h ν b' c' maxp minp 0 α' β' ≠ XQ.negInf := by
    intro b' c' α' β' hcontra
    exact absurd hcontra (by simp [expectiminimax])
  have hface : ∀ dice,
      faceValueWith (fun b' c' α' β' => expectiminimax h ν b' c' maxp minp 0 α' β')
        ν b cur maxp minp .negInf .posInf dice =
      faceValueFullWith (fun b' c' α' β' => expectiminimaxFull h ν b' c' maxp minp 0 α' β')
        ν b cur maxp minp .negInf .posInf dice := by
    intro dice
    have hrecEq : (fun (b' : Board) (c' : PlayerColor) (α' β' : XQ) =>
        expectiminimaxFull h ν b' c' maxp minp 0 α' β') =
        (fun b' c' α' β' => expectiminimax h ν b' c' maxp minp 0 α' β') := rfl
    rw [hrecEq]
    unfold faceValueWith faceValueFullWith
    by_cases hcur : cur = maxp
    · rw [if_pos hcur, if_pos hcur]
      exact scanMax_posInf_eq_full _ hrecP b maxp minp dice _ _ _
        (fun hcontra => XQ.noConfusion hcontra)
    · rw [if_neg hcur, if_neg hcur]
      exact scanMin_negInf_eq_full _ hrecN b minp maxp dice _ _ _
        (fun hcontra => XQ.noConfusion hcontra)
  rw [show (1 : Nat) = 0 + 1 from rfl, expectiminimax_succ, expectiminimaxFull_succ]
  congr 1
  have hfun : (fun (acc : XQ) (dice : Nat) =>
      acc.add ((emmFace h ν b cur maxp minp 0 .negInf .posInf dice).scale
        (faceMultiplier dice))) =
      (fun (acc : XQ) (dice : Nat) =>
        acc.add ((faceValueFullWith
          (fun b' c' α' β' => expectiminimaxFull h ν b' c' maxp minp 0 α' β')
          ν b cur maxp minp .negInf .posInf dice).scale (faceMultiplier dice))) := by
    funext acc dice
    exact congrArg (fun z => acc.add (z.scale (faceMultiplier dice))) (hface dice)
  rw [hfun]

/-- Counterexample for C2 as stated: at depth bound 2 with the root window
the pruned and unpruned values differ on a concrete winner-free board
(all goals empty, so no immediate-win/loss short-circuit can fire anywhere
in the two-ply tree — a win needs four goal pieces). -/
theorem ab_prune_value_counterexample :
    expectiminimax minimalHeuristic nu0 bPrune .Red .Red .Yellow 2 .negInf .posInf ≠
      expectiminimaxFull minimalHeuristic nu0 bPrune .Red .Red .Yellow 2 .negInf .posInf ∧
    getWinnerB bPrune = none ∧ (∀ c, goalCount (bPrune.goals c) = 0) :=
  ⟨by with_unfolding_all decide, by decide, by decide⟩

/-! ## C7: the root tie-break perturbation -/

theorem XQ.le_addQ (x : XQ) (n : ℚ) (hn : 0 ≤ n) : x ≤ x.addQ n := by
  cases x with
  | negInf => trivial
  | posInf => trivial
  | fin a => exact (XQ.fin_le_fin a (a + n)).2 (by linarith)

/-- The arg-max scan visits the carried best and every remaining element,
and its result dominates all of their keys (for its own perturbation
index). -/
theorem maxByKeyLast_spec (key : Nat × StruggleMove → XQ) :
    ∀ (ms : List StruggleMove) (i : Nat) (best : Nat × StruggleMove),
      ((maxByKeyLast key i best ms).2 ∈ best.2 :: ms) ∧
      key best ≤ key (maxByKeyLast key i best ms) ∧
      ∀ m ∈ ms, ∃ j, key (j, m) ≤ key (maxByKeyLast key i best ms) := by
  intro ms
  induction ms with
  | nil =>
    intro i best
    exact ⟨List.mem_cons_self _ _, XQ.leRefl _, by simp⟩
  | cons m ms ih =>
    intro i best
    simp only [maxByKeyLast]
    by_cases hb : key best ≤ key (i, m)
    · rw [if_pos hb]
      obtain ⟨hmem, hkey, hall⟩ := ih (i + 1) (i, m)
      refine ⟨?_, XQ.leTrans hb hkey, ?_⟩
      · rcases List.mem_cons.1 hmem with heq | hmem2
        · exact heq ▸ List.mem_cons_of_mem _ (List.mem_cons_self _ _)
        · exact List.mem_cons_of_mem _ (List.mem_cons_of_mem _ hmem2)
      · intro m' hm'
        rcases List.mem_cons.1 hm' with rfl | hm2
        · exact ⟨i, hkey⟩
        · exact hall m' hm2
    · rw [if_neg hb]
      obtain ⟨hmem, hkey, hall⟩ := ih (i + 1) best
      refine ⟨?_, hkey, ?_⟩
      · rcases List.mem_cons.1 hmem with heq | hmem2
        · exact heq ▸ List.mem_cons_self _ _
        · exact List.mem_cons_of_mem _ (List.mem_cons_of_mem _ hmem2)
      · intro m' hm'
        rcases List.mem_cons.1 hm' with rfl | hm2
        · exact ⟨i, XQ.leTrans ((XQ.leTotal _ _).resolve_left hb) hkey⟩
        · exact hall m' hm2

/-- C7 (amended).  The returned move always maximizes the perturbed score;
whenever every pair of distinct root scores is at least 1 apart (the
perturbation draws lie in `[0, 1)`), the returned move also has maximal
unperturbed search score.  (The counterexample shows the perturbation can
flip candidates whose scores differ by less than 1.) -/
theorem tie_break_amended (h : Heuristic) (ν : SortNoise) (maxDepth : Nat) (νp : Nat → ℚ)
    (ctx : GameContext) (b : Board) (moves : List StruggleMove) (sel : StruggleMove)
    (hνp : ∀ i, 0 ≤ νp i ∧ νp i < 1)
    (hgap : ∀ m1 m2, m1 ∈ moves → m2 ∈ moves →
      rootScore h ν maxDepth ctx b m1 ≤ rootScore h ν maxDepth ctx b m2 →
      rootScore h ν maxDepth ctx b m1 ≠ rootScore h ν maxDepth ctx b m2 →
      (rootScore h ν maxDepth ctx b m1).addQ 1 ≤ rootScore h ν maxDepth ctx b m2)
    (hsel : selectMoveGT h ν maxDepth νp ctx b moves = some sel) :
    sel ∈ moves ∧
      ∀ m ∈ moves, rootScore h ν maxDepth ctx b m ≤ rootScore h ν maxDepth ctx b sel := by
  cases moves with
  | nil => simp [selectMoveGT] at hsel
  | cons m0 rest =>
    cases rest with
    | nil =>
      simp only [selectMoveGT] at hsel
      injection hsel with hsel
      subst hsel
      refine ⟨List.mem_cons_self _ _, ?_⟩
      intro m hm
      rcases List.mem_cons.1 hm with rfl | hm2
      · exact XQ.leRefl _
      · simp at hm2
    | cons m1 rest2 =>
      simp only [selectMoveGT] at hsel
      injection hsel with hsel
      obtain ⟨hmem, hkey0, hall⟩ := maxByKeyLast_spec
        (fun im => (rootScore h ν maxDepth ctx b im.2).addQ (νp im.1))
        (m1 :: rest2) 1 (0, m0)
      set best := maxByKeyLast
        (fun im => (rootScore h ν maxDepth ctx b im.2).addQ (νp im.1)) 1 (0, m0) (m1 :: rest2)
        with hbest
      have hselmem : sel ∈ m0 :: m1 :: rest2 := hsel ▸ hmem
      refine ⟨hselmem, ?_⟩
      intro m hm
      -- every candidate has some index whose perturbed key is dominated
      have hdom : ∃ j, (rootScore h ν maxDepth ctx b m).addQ (νp j) ≤
          (rootScore h ν maxDepth ctx b best.2).addQ (νp best.1) := by
        rcases List.mem_cons.1 hm with rfl | hm2
        · exact ⟨0, hkey0⟩
        · exact hall m hm2
      rcases hdom with ⟨j, hj⟩
      rw [← hsel]
      by_contra hcon
      -- the selected score is then strictly below m's score, with gap ≥ 1
      have hle : rootScore h ν maxDepth ctx b best.2 ≤ rootScore h ν maxDepth ctx b m :=
        (XQ.leTotal _ _).resolve_left hcon
      have hne : rootScore h ν maxDepth ctx b best.2 ≠ rootScore h ν maxDepth ctx b m := by
        intro he
        exact hcon (he ▸ XQ.leRefl _)
      have hgap1 : (rootScore h ν maxDepth ctx b best.2).addQ 1 ≤
          rootScore h ν maxDepth ctx b m :=
        hgap best.2 m (hsel ▸ hselmem) hm hle hne
      have hchain : rootScore h ν maxDepth ctx b m ≤
          (rootScore h ν maxDepth ctx b best.2).addQ (νp best.1) :=
        XQ.leTrans (XQ.le_addQ _ _ (hνp j).1) hj
      -- case on the selected score
      cases hsb : rootScore h ν maxDepth ctx b best.2 with
      | posInf => exact hcon (hsb ▸ XQ.le_posInf _)
      | negInf =>
        rw [hsb] at hchain
        have : rootScore h ν maxDepth ctx b m = XQ.negInf :=
          (XQ.le_negInf_iff _).1 hchain
        exact hne (hsb.trans this.symm)
      | fin s =>
        rw [hsb] at hgap1 hchain
        have h1 : (XQ.fin (s + 1)) ≤ XQ.fin (s + νp best.1) :=
          XQ.leTrans hgap1 hchain
        have h2 : s + 1 ≤ s + νp best.1 := (XQ.fin_le_fin _ _).1 h1
        have h3 : νp best.1 < 1 := (hνp best.1).2
        exact absurd ((add_le_add_iff_left s).1 h2) (not_le.2 h3)

/-- Counterexample for C7 as stated: on the concrete board `bTie` with the
legal RNG draws `9/10` and `0`, `select_move` returns the candidate whose
unperturbed score (`17/12`) is strictly below the other candidate's
(`13/9`): the perturbation flipped two distinct scores. -/
theorem tie_break_counterexample :
    selectMoveGT minimalHeuristic nu0 1 nuEx ctxEx bTie (getMovesB bTie 1 .Red .Yellow) =
      some (.MovePiece 13 14 false) ∧
    StruggleMove.MovePiece 20 21 false ∈ getMovesB bTie 1 .Red .Yellow ∧
    rootScore minimalHeuristic nu0 1 ctxEx bTie (.MovePiece 13 14 false) ≤
      rootScore minimalHeuristic nu0 1 ctxEx bTie (.MovePiece 20 21 false) ∧
    rootScore minimalHeuristic nu0 1 ctxEx bTie (.MovePiece 13 14 false) ≠
      rootScore minimalHeuristic nu0 1 ctxEx bTie (.MovePiece 20 21 false) :=
  ⟨by with_unfolding_all decide, by decide,
    by with_unfolding_all decide, by with_unfolding_all decide⟩

/-- Witness for the amended C7 at a concrete input. -/
theorem tie_break_amended_witness :
    StruggleMove.AddNewPiece true ∈ getMovesB bEat 6 .Red .Yellow ∧
      ∀ m ∈ getMovesB bEat 6 .Red .Yellow,
        rootScore minimalHeuristic nu0 1 ctxW bEat m ≤
          rootScore minimalHeuristic nu0 1 ctxW bEat (.AddNewPiece true) :=
  tie_break_amended minimalHeuristic nu0 1 (fun _ => 0) ctxW bEat
    (getMovesB bEat 6 .Red .Yellow) (.AddNewPiece true)
    (fun i => ⟨le_rfl, by norm_num⟩)
    (fun m1 m2 h1 h2 hle hne => by
      rw [show getMovesB bEat 6 .Red .Yellow = [.AddNewPiece true] from by decide] at h1 h2
      simp at h1 h2
      subst h1; subst h2
      exact absurd rfl hne)
    (by decide)

end Struggle
